import Mathlib

/-!
Verification of the slack-prediction core of `prediction.py`
(feature engineering, feature reconstruction, endpoint alignment,
ensemble correction and bounds clamping).

Modelling conventions:
* Python floats are modelled as exact rationals (`ℚ`); `NaN` (a pandas
  missing value) is modelled as `Option ℚ` with `none` for missing.
  Over `ℚ` no operation of the modelled pipeline can produce ±infinity
  (every denominator is `|x| + 1e-8 > 0`), so the source's
  "replace ±inf with NaN" step is the identity here and is not given a
  separate definition.
* Python strings are modelled as `List Char`, with the string
  operations used by the source (`split`, `join`, `replace`, `in`,
  `endswith`, `lower`, `strip`) re-defined below with Python semantics.
* `np.log`, `np.tanh` and `np.sqrt` are transcendental; the embeddings
  take them as function parameters, so every theorem holds for the
  actual functions.  `abs(hash(...)) % 10000` is taken as a
  `Fin 10000`-valued parameter.  `np.std < c` tests on a list whose
  variance is known are encoded on the variance (`var < c^2`), which is
  exactly equivalent for `c > 0` since `std = sqrt var ≥ 0`.
* `pandas.sort_values` is modelled as a stable sort (insertion sort,
  which is also what numpy's default sort runs for the small arrays of
  every concrete instance here).
* Where the module defines a function twice (e.g. `normalize_endpoint`
  at lines 182 and 1361), the later definition shadows the earlier one
  at every call site; the embedding of the effective function carries
  the source's name, the shadowed one is suffixed `_shadowed`.
-/

namespace Pred

/-! ### Python strings -/

/-- Column / endpoint names are Python strings, modelled as `List Char`. -/
abbrev Name := List Char

/-- `s.startswith p` for Python strings. -/
def isPfx : List Char → List Char → Bool
  | [], _ => true
  | _ :: _, [] => false
  | p :: ps, x :: xs => p == x && isPfx ps xs

/-- Python's substring test `pat in s`. -/
def containsSub (pat : List Char) : List Char → Bool
  | [] => isPfx pat []
  | x :: xs => isPfx pat (x :: xs) || containsSub pat xs

/-- `s.endswith p` for Python strings. -/
def endsWith (pat s : List Char) : Bool :=
  isPfx pat.reverse s.reverse

/-- Python's `s.split(c)` for a one-character separator. -/
def splitOnChar (c : Char) : List Char → List (List Char)
  | [] => [[]]
  | x :: xs =>
    match splitOnChar c xs with
    | [] => [[]]
    | h :: t => if x == c then [] :: h :: t else (x :: h) :: t

/-- Python's `c.join(parts)` for a one-character separator. -/
def joinOn (c : Char) : List (List Char) → List Char
  | [] => []
  | [p] => p
  | p :: ps => p ++ c :: joinOn c ps

/-- Python's `s.replace(pat, rep)` scan (all non-overlapping
occurrences, left to right), with an explicit fuel argument for
structural recursion; `fuel = s.length` always suffices because every
step consumes at least one character. -/
def replaceAllF (pat rep : List Char) : ℕ → List Char → List Char
  | 0, s => s
  | fuel + 1, s =>
    match s with
    | [] => []
    | x :: xs =>
      if pat ≠ [] ∧ isPfx pat (x :: xs) then
        rep ++ replaceAllF pat rep fuel (List.drop pat.length (x :: xs))
      else
        x :: replaceAllF pat rep fuel xs

/-- Python's `s.replace(pat, rep)`.  The source only calls it with
non-empty `pat`. -/
def replaceAll (pat rep s : List Char) : List Char :=
  replaceAllF pat rep s.length s

/-- Python's `s.lower()`. -/
def pyLower (s : List Char) : List Char := s.map Char.toLower

/-- Python's `s.strip()` (whitespace trim at both ends). -/
def pyStrip (s : List Char) : List Char :=
  ((s.dropWhile Char.isWhitespace).reverse.dropWhile Char.isWhitespace).reverse

/-! ### Endpoint normalization (Alignment Engine) -/

/-- `normalize_endpoint`, prediction.py line 1361.  This is the second
module-level definition of the name and therefore the one every call
site uses.  For a slash-delimited identifier it keeps the last two path
segments joined by `/`; otherwise it returns the input unchanged.  It
does not trim and does not lower-case. -/
def normalize_endpoint (endpoint : Name) : Name :=
  let parts := splitOnChar '/' endpoint
  match parts.reverse with
  | last :: secondLast :: _ => secondLast ++ '/' :: last
  | _ => endpoint

/-- `normalize_endpoint`, prediction.py line 182: trim then lower-case.
It is shadowed by the later definition at line 1361 and never runs. -/
def normalize_endpoint_shadowed (endpoint : Name) : Name :=
  pyLower (pyStrip endpoint)

/-! ### Alignment filtering and deduplication -/

/-- Stable insertion of `x` into `s`: `x` goes before the first element
`y` with `le x y`, hence before every element its key ties with. -/
def insertSorted (le : α → α → Bool) (x : α) : List α → List α
  | [] => [x]
  | y :: ys => if le x y then x :: y :: ys else y :: insertSorted le x ys

/-- Stable insertion sort (the model of `pandas.sort_values`). -/
def insertionSort (le : α → α → Bool) : List α → List α
  | [] => []
  | x :: xs => insertSorted le x (insertionSort le xs)

/-- The pandas dtypes distinguished by the source. -/
inductive Dtype
  | float64
  | float32
  | int64
  | int32
  | int16
  | int8
  | object
  | boolean
  | other
deriving DecidableEq

/-- Membership in the numeric-dtype list of line 1049:
`['float64', 'int64', 'float32', 'int32', 'int16', 'int8']`. -/
def Dtype.isNumericDtype : Dtype → Bool
  | .float64 | .int64 | .float32 | .int32 | .int16 | .int8 => true
  | _ => false

/-- A cell value of a fetched table. -/
inductive PyVal
  | num (q : ℚ)
  | str (s : Name)
  | missing
deriving DecidableEq

/-- `pd.to_numeric(·, errors='coerce')` on one cell, with the
string-to-number parser abstracted as `parseNum`. -/
def toNumericOk (parseNum : Name → Option ℚ) : PyVal → Option ℚ
  | .num q => some q
  | .str s => parseNum s
  | .missing => none

/-- A column of a fetched table, with its declared pandas dtype. -/
structure TblCol where
  name : Name
  dtype : Dtype
  vals : List PyVal

/-- A fetched table: row count plus columns (each column of a
well-formed table has `nrows` values). -/
structure Tbl where
  nrows : ℕ
  cols : List TblCol

/-- `detect_feature_columns(df, target_col)`, line 1033: every
non-target column whose declared dtype is in the numeric list, or is
`object`, qualifies iff strictly more than 80 percent of the table's
rows coerce to numbers. -/
def detect_feature_columns (parseNum : Name → Option ℚ) (df : Tbl)
    (target_col : Option Name) : List Name :=
  let exclude : List Name :=
    match target_col with
    | some t => if df.cols.any (fun c => c.name == t) then [t] else []
    | none => []
  (df.cols.filter (fun c =>
    !(exclude.contains c.name) &&
    (if c.dtype.isNumericDtype then
      decide ((0.8 : ℚ) * df.nrows < ((c.vals.filterMap (toNumericOk parseNum)).length : ℚ))
    else if c.dtype == .object then
      decide ((0.8 : ℚ) * df.nrows < ((c.vals.filterMap (toNumericOk parseNum)).length : ℚ))
    else false))).map (fun c => c.name)

/-! ### Feature engineering data model -/

/-- One column of a raw (fetched) table: its name, whether its pandas
dtype is one of the numeric dtypes, and its values (`none` = NaN). -/
structure RawCol where
  name : Name
  numeric : Bool
  vals : List (Option ℚ)

/-- A raw table: a row count plus named columns. -/
structure RawDF where
  nrows : ℕ
  cols : List RawCol

/-- First column of the given name, if any (pandas label lookup). -/
def findCol (df : RawDF) (n : Name) : Option RawCol :=
  df.cols.find? (fun c => c.name == n)

/-- One column of an engineered table. -/
structure EngCol where
  name : Name
  vals : List (Option ℚ)

/-- An engineered table. -/
structure EngDF where
  nrows : ℕ
  cols : List EngCol

/-- `engineered_df[n]`: values of the first column named `n`. -/
def EngDF.get (df : EngDF) (n : Name) : List (Option ℚ) :=
  match df.cols.find? (fun c => c.name == n) with
  | some c => c.vals
  | none => []

/-- Does the engineered table have a column named `n`? -/
def EngDF.hasCol (df : EngDF) (n : Name) : Bool :=
  df.cols.any (fun c => c.name == n)

/-- `engineered_df[n] = v`: overwrite the column in place if the label
exists, else append it at the end (pandas assignment semantics). -/
def EngDF.set (df : EngDF) (n : Name) (v : List (Option ℚ)) : EngDF :=
  if df.hasCol n then
    { df with cols := df.cols.map (fun c => if c.name == n then ⟨c.name, v⟩ else c) }
  else
    { df with cols := df.cols ++ [⟨n, v⟩] }

/-- `df[base_columns].copy()`: the base columns, in the given order. -/
def baseSelect (df : RawDF) (base : List Name) : EngDF :=
  ⟨df.nrows, base.map (fun b => ⟨b, ((findCol df b).map RawCol.vals).getD []⟩)⟩

/-- Row-wise `colA / (abs(colB) + 1e-8)` with NaN propagation. -/
def ratioVals (a b : List (Option ℚ)) : List (Option ℚ) :=
  a.zipWith (fun x y =>
    match x, y with
    | some u, some v => some (u / (|v| + 1e-8))
    | _, _ => none) b

/-- Row-wise `colA * colB` with NaN propagation. -/
def prodVals (a b : List (Option ℚ)) : List (Option ℚ) :=
  a.zipWith (fun x y =>
    match x, y with
    | some u, some v => some (u * v)
    | _, _ => none) b

/-- Row-wise `col ** 2` with NaN propagation. -/
def squareVals (a : List (Option ℚ)) : List (Option ℚ) :=
  a.map (fun x => x.map (fun u => u ^ 2))

/-- The log feature: a column initialized to 0 and overwritten with
`log(col + 1e-8)` on the rows where `col > 0` (NaN compares false). -/
def logVals (lg : ℚ → ℚ) (a : List (Option ℚ)) : List (Option ℚ) :=
  a.map (fun x =>
    match x with
    | some u => if 0 < u then some (lg (u + 1e-8)) else some 0
    | none => some 0)

/-- `(col > 0).sum() > 0`: does the column hold any positive value? -/
def anyPositive (a : List (Option ℚ)) : Bool :=
  a.any (fun x =>
    match x with
    | some u => decide (0 < u)
    | none => false)

/-- `df[cols].sum(axis=1)`: row-wise sum, skipping NaN (an all-NaN row
sums to 0). -/
def rowSumVals (nrows : ℕ) (cs : List (List (Option ℚ))) : List (Option ℚ) :=
  (List.range nrows).map (fun i =>
    some ((cs.map (fun col => (col.getD i none).getD 0)).sum))

/-- `Series.median()`: median of the non-missing values — sort, take the
middle element, or the mean of the two middle elements. -/
def median (l : List ℚ) : Option ℚ :=
  let s := insertionSort (fun a b : ℚ => decide (a ≤ b)) l
  let n := s.length
  if n = 0 then none
  else if n % 2 = 1 then some (s.getD (n / 2) 0)
  else some ((s.getD (n / 2 - 1) 0 + s.getD (n / 2) 0) / 2)

/-- Fill the missing values of one column with the column's median of
present values, or with 0 when the median is itself undefined. -/
def fillColMedian (v : List (Option ℚ)) : List (Option ℚ) :=
  if v.any (fun x => x.isNone) then
    let m := (median (v.filterMap id)).getD 0
    v.map (fun x => some (x.getD m))
  else v

/-- The NaN-cleanup tail shared by lines 1344-1353 and 1252-1261.
(The inf→NaN replacement that precedes it in the source is the identity
over `ℚ`.) -/
def fillMedians (df : EngDF) : EngDF :=
  ⟨df.nrows, df.cols.map (fun c => ⟨c.name, fillColMedian c.vals⟩)⟩

/-- Ordered pairs `(l[i], l[j])` with `i < j`, the iteration order of
`for i, col1 in enumerate(cols): for col2 in cols[i+1:]`. -/
def ordPairs : List α → List (α × α)
  | [] => []
  | x :: xs => xs.map (fun y => (x, y)) ++ ordPairs xs

/-- `f"{col1}_{col2}_ratio"`. -/
def ratioName (c1 c2 : Name) : Name :=
  c1 ++ '_' :: (c2 ++ String.toList "_ratio")

/-- `f"{col1}_{col2}_interaction"`. -/
def interactionName (c1 c2 : Name) : Name :=
  c1 ++ '_' :: (c2 ++ String.toList "_interaction")

/-- `f"{col}_squared"`. -/
def squaredName (c : Name) : Name := c ++ String.toList "_squared"

/-- `f"{col}_log"`. -/
def logName (c : Name) : Name := c ++ String.toList "_log"

/-- Does the (lower-cased) column name contain `delay`? -/
def isDelayCol (c : Name) : Bool := containsSub (String.toList "delay") (pyLower c)

/-- Does the (lower-cased) column name contain `count`? -/
def isCountCol (c : Name) : Bool := containsSub (String.toList "count") (pyLower c)

/-! ### Feature Engineer: `create_dynamic_features` (line 1277) -/

/-- `create_dynamic_features(df, base_columns)`, line 1277.  `lg` is
`np.log`.  `df[base_columns]` raises `KeyError` when a base column is
missing, modelled as `.error`. -/
def create_dynamic_features (lg : ℚ → ℚ) (df : RawDF) (base : List Name) :
    Except Unit EngDF :=
  if base.all (fun b => (findCol df b).isSome) then
    let eng0 := baseSelect df base
    let numeric := (df.cols.filter (fun c => c.numeric)).map (fun c => c.name)
    let eng1 := (ordPairs numeric).foldl (fun eng p =>
      if base.contains p.1 && base.contains p.2 then
        let e1 := eng.set (ratioName p.1 p.2) (ratioVals (eng.get p.1) (eng.get p.2))
        e1.set (interactionName p.1 p.2) (prodVals (e1.get p.1) (e1.get p.2))
      else eng) eng0
    let delay_cols := base.filter isDelayCol
    let eng2 :=
      if 1 < delay_cols.length then
        eng1.set (String.toList "combined_delays")
          (rowSumVals df.nrows (delay_cols.map (fun c => eng1.get c)))
      else eng1
    let count_cols := base.filter isCountCol
    let eng3 :=
      if 1 < count_cols.length then
        eng2.set (String.toList "combined_counts")
          (rowSumVals df.nrows (count_cols.map (fun c => eng2.get c)))
      else eng2
    let eng4 := base.foldl (fun eng col =>
      if numeric.contains col then
        let e1 := eng.set (squaredName col) (squareVals (eng.get col))
        if anyPositive (e1.get col) then
          e1.set (logName col) (logVals lg (e1.get col))
        else e1
      else eng) eng3
    .ok (fillMedians eng4)
  else .error ()

/-! ### Feature Reconstructor: `recreate_trained_features` (line 1160) -/

/-- The split search of lines 1186-1191: try every split point of
`parts` (Python `range(1, len(parts))`), first one whose two joined
sides are both base columns wins. -/
def firstValidSplit (parts : List Name) (base : List Name) : Option (Name × Name) :=
  ((List.range parts.length).drop 1).findSome? (fun i =>
    let c1 := joinOn '_' (parts.take i)
    let c2 := joinOn '_' (parts.drop i)
    if base.contains c1 && base.contains c2 then some (c1, c2) else none)

/-- One iteration of the reconstruction loop (lines 1179-1250): match
the feature name against `_ratio` / `_interaction` / `combined_delays` /
`combined_counts` / `_squared` / `_log`, recompute it from the current
engineered table, or fall through to the zero-fill of line 1246.
A `_ratio`/`_interaction` name whose split search fails is skipped
without assignment (`continue` at lines 1197/1215); the final reorder
zero-fills it. -/
def recreateStep (lg : ℚ → ℚ) (base : List Name) (nrows : ℕ)
    (eng : EngDF) (feature_name : Name) : EngDF :=
  if containsSub (String.toList "_ratio") feature_name then
    let parts := splitOnChar '_' (replaceAll (String.toList "_ratio") [] feature_name)
    if 2 ≤ parts.length then
      match firstValidSplit parts base with
      | some p => eng.set feature_name (ratioVals (eng.get p.1) (eng.get p.2))
      | none =>
        let c1 := parts.headD []
        let c2 := joinOn '_' parts.tail
        if base.contains c1 && base.contains c2 then
          eng.set feature_name (ratioVals (eng.get c1) (eng.get c2))
        else eng
    else eng.set feature_name (List.replicate nrows (some 0))
  else if containsSub (String.toList "_interaction") feature_name then
    let parts := splitOnChar '_' (replaceAll (String.toList "_interaction") [] feature_name)
    if 2 ≤ parts.length then
      match firstValidSplit parts base with
      | some p => eng.set feature_name (prodVals (eng.get p.1) (eng.get p.2))
      | none =>
        let c1 := parts.headD []
        let c2 := joinOn '_' parts.tail
        if base.contains c1 && base.contains c2 then
          eng.set feature_name (prodVals (eng.get c1) (eng.get c2))
        else eng
    else eng.set feature_name (List.replicate nrows (some 0))
  else if feature_name == String.toList "combined_delays" then
    let delay_cols := base.filter isDelayCol
    if 1 < delay_cols.length then
      eng.set feature_name (rowSumVals nrows (delay_cols.map (fun c => eng.get c)))
    else eng.set feature_name (List.replicate nrows (some 0))
  else if feature_name == String.toList "combined_counts" then
    let count_cols := base.filter isCountCol
    if 1 < count_cols.length then
      eng.set feature_name (rowSumVals nrows (count_cols.map (fun c => eng.get c)))
    else eng.set feature_name (List.replicate nrows (some 0))
  else if endsWith (String.toList "_squared") feature_name then
    let base_col := replaceAll (String.toList "_squared") [] feature_name
    if base.contains base_col then
      eng.set feature_name (squareVals (eng.get base_col))
    else eng.set feature_name (List.replicate nrows (some 0))
  else if endsWith (String.toList "_log") feature_name then
    let base_col := replaceAll (String.toList "_log") [] feature_name
    if base.contains base_col then
      eng.set feature_name (logVals lg (eng.get base_col))
    else eng.set feature_name (List.replicate nrows (some 0))
  else eng.set feature_name (List.replicate nrows (some 0))

/-- The engineered table built by the reconstruction loop (lines
1167-1261): base columns, then each non-base trained feature in order,
then the median fill. -/
def recreateEngineered (lg : ℚ → ℚ) (df : RawDF)
    (trained : List Name) (base : List Name) : EngDF :=
  fillMedians
    ((trained.filter (fun c => !(base.contains c))).foldl
      (recreateStep lg base df.nrows) (baseSelect df base))

/-- `recreate_trained_features(df, trained_feature_columns,
base_columns)`, line 1160.  Raises `ValueError` (modelled `.error`)
when a base column is missing from the raw table (line 1165); otherwise
rebuilds each non-base trained feature by name, median-fills, and
reorders/selects to exactly `trained_feature_columns`, zero-filling the
columns it could not rebuild. -/
def recreate_trained_features (lg : ℚ → ℚ) (df : RawDF)
    (trained : List Name) (base : List Name) : Except Unit EngDF :=
  if base.all (fun b => (findCol df b).isSome) then
    let eng2 := recreateEngineered lg df trained base
    .ok ⟨df.nrows, trained.map (fun c =>
      if eng2.hasCol c then ⟨c, eng2.get c⟩
      else ⟨c, List.replicate df.nrows (some 0)⟩)⟩
  else .error ()

/-! ### The engineered-column plan (used to state and prove the
round-trip between the Feature Engineer and the Feature Reconstructor) -/

/-- A base-column name is *clean* when it is non-empty, contains no
underscore, and does not contain any of the four reserved suffix tokens
as a substring.  The round-trip holds for clean names; the C1
counterexample shows it fails without this restriction. -/
def CleanName (b : Name) : Prop :=
  b ≠ [] ∧ '_' ∉ b ∧
  ¬ String.toList "ratio" <:+: b ∧ ¬ String.toList "interaction" <:+: b ∧
  ¬ String.toList "squared" <:+: b ∧ ¬ String.toList "log" <:+: b

instance (b : Name) : Decidable (CleanName b) :=
  decidable_of_iff (b ≠ [] ∧ '_' ∉ b ∧
    ¬ String.toList "ratio" <:+: b ∧ ¬ String.toList "interaction" <:+: b ∧
    ¬ String.toList "squared" <:+: b ∧ ¬ String.toList "log" <:+: b) Iff.rfl

/-- The numeric-dtype column names of the raw table, in order. -/
def numericNames (df : RawDF) : List Name :=
  (df.cols.filter (fun c => c.numeric)).map (fun c => c.name)

/-- The base-column pairs the Feature Engineer's double loop visits. -/
def basePairs (df : RawDF) (base : List Name) : List (Name × Name) :=
  (ordPairs (numericNames df)).filter (fun p => base.contains p.1 && base.contains p.2)

/-- The ratio/interaction columns of the plan, all operands read from
the base selection. -/
def pairCols (df : RawDF) (base : List Name) : List EngCol :=
  (basePairs df base).flatMap (fun p =>
    [⟨ratioName p.1 p.2,
      ratioVals ((baseSelect df base).get p.1) ((baseSelect df base).get p.2)⟩,
     ⟨interactionName p.1 p.2,
      prodVals ((baseSelect df base).get p.1) ((baseSelect df base).get p.2)⟩])

/-- The combined_delays / combined_counts columns of the plan. -/
def aggCols (df : RawDF) (base : List Name) : List EngCol :=
  (if 1 < (base.filter isDelayCol).length then
    [⟨String.toList "combined_delays",
      rowSumVals df.nrows
        ((base.filter isDelayCol).map (fun c => (baseSelect df base).get c))⟩]
  else []) ++
  (if 1 < (base.filter isCountCol).length then
    [⟨String.toList "combined_counts",
      rowSumVals df.nrows
        ((base.filter isCountCol).map (fun c => (baseSelect df base).get c))⟩]
  else [])

/-- The squared / log columns of the plan (a log column exists exactly
when the base column holds a positive value). -/
def sqLogCols (lg : ℚ → ℚ) (df : RawDF) (base : List Name) : List EngCol :=
  base.flatMap (fun col =>
    if (numericNames df).contains col then
      ⟨squaredName col, squareVals ((baseSelect df base).get col)⟩ ::
        (if anyPositive ((baseSelect df base).get col) then
          [⟨logName col, logVals lg ((baseSelect df base).get col)⟩]
        else [])
    else [])

/-- The full engineered-column plan: base columns then every derived
column in generation order. -/
def plannedCols (lg : ℚ → ℚ) (df : RawDF) (base : List Name) : List EngCol :=
  (baseSelect df base).cols ++ pairCols df base ++ aggCols df base ++ sqLogCols lg df base

/-- The reconstruction plan: for every derived feature name, the
recomputation the Feature Reconstructor performs on the current
engineered table, and its value when the operands are read from the
base selection. -/
def recreateSpec (lg : ℚ → ℚ) (df : RawDF) (base : List Name) :
    List (Name × ((EngDF → List (Option ℚ)) × List (Option ℚ))) :=
  (basePairs df base).flatMap (fun p =>
    [(ratioName p.1 p.2,
      ((fun eng : EngDF => ratioVals (eng.get p.1) (eng.get p.2)),
       ratioVals ((baseSelect df base).get p.1) ((baseSelect df base).get p.2))),
     (interactionName p.1 p.2,
      ((fun eng : EngDF => prodVals (eng.get p.1) (eng.get p.2)),
       prodVals ((baseSelect df base).get p.1) ((baseSelect df base).get p.2)))]) ++
  (((if 1 < (base.filter isDelayCol).length then
      [(String.toList "combined_delays",
        ((fun eng : EngDF => rowSumVals df.nrows
          ((base.filter isDelayCol).map (fun c => eng.get c))),
         rowSumVals df.nrows
          ((base.filter isDelayCol).map (fun c => (baseSelect df base).get c))))]
    else []) ++
    (if 1 < (base.filter isCountCol).length then
      [(String.toList "combined_counts",
        ((fun eng : EngDF => rowSumVals df.nrows
          ((base.filter isCountCol).map (fun c => eng.get c))),
         rowSumVals df.nrows
          ((base.filter isCountCol).map (fun c => (baseSelect df base).get c))))]
    else [])) ++
    base.flatMap (fun col =>
      if (numericNames df).contains col then
        (squaredName col,
         ((fun eng : EngDF => squareVals (eng.get col)),
          squareVals ((baseSelect df base).get col))) ::
        (if anyPositive ((baseSelect df base).get col) then
          [(logName col,
            ((fun eng : EngDF => logVals lg (eng.get col)),
             logVals lg ((baseSelect df base).get col)))]
        else [])
      else []))

/-- The ratio/interaction names of the plan. -/
def pairNames (df : RawDF) (base : List Name) : List Name :=
  (basePairs df base).flatMap (fun p => [ratioName p.1 p.2, interactionName p.1 p.2])

/-- The combined_delays / combined_counts names of the plan. -/
def aggNames (base : List Name) : List Name :=
  (if 1 < (base.filter isDelayCol).length then
    [String.toList "combined_delays"] else []) ++
  (if 1 < (base.filter isCountCol).length then
    [String.toList "combined_counts"] else [])

/-- The squared/log names of the plan. -/
def sqLogNames (df : RawDF) (base : List Name) : List Name :=
  base.flatMap (fun col =>
    if (numericNames df).contains col then
      squaredName col :: (if anyPositive ((baseSelect df base).get col) then
        [logName col] else [])
    else [])

/-! ### Ensemble Corrector -/

/-- `np.mean` (the source never takes the mean of an empty array). -/
def npMean (l : List ℚ) : ℚ := l.sum / l.length

/-- Population variance, `np.std(l) ** 2`. -/
def npVar (l : List ℚ) : ℚ :=
  (l.map (fun x => (x - npMean l) ^ 2)).sum / l.length

/-- `calculate_realistic_route_slack` tier weight (lines 2284-2295):
weight toward the worse slack as a function of `min_slack`. -/
def realistic_weight_to_worse (min_slack : ℚ) : ℚ :=
  if 1 < |min_slack| then 0.95
  else if 0.5 < |min_slack| then 0.92
  else if 0.2 < |min_slack| then 0.88
  else 0.85

/-- `calculate_realistic_route_slack` tier optimization cap
(lines 2284-2295). -/
def realistic_optimization (min_slack : ℚ) : ℚ :=
  if 1 < |min_slack| then 0.005
  else if 0.5 < |min_slack| then 0.01
  else if 0.2 < |min_slack| then 0.02
  else 0.025

/-- `base_route = min_slack * weight + avg_slack * (1 - weight)`
(line 2298). -/
def realistic_base_route (place_slack cts_slack : ℚ) : ℚ :=
  let min_slack := min place_slack cts_slack
  let avg_slack := (place_slack + cts_slack) / 2
  let w := realistic_weight_to_worse min_slack
  min_slack * w + avg_slack * (1 - w)

/-- `calculate_realistic_route_slack(place_slack, cts_slack)`,
line 2262 (the second definition of this name; it shadows the one at
line 467 wherever it is called). -/
def calculate_realistic_route_slack (place_slack cts_slack : ℚ) : ℚ :=
  let min_slack := min place_slack cts_slack
  let max_slack := max place_slack cts_slack
  let base_route := realistic_base_route place_slack cts_slack
  let slack_diff := |place_slack - cts_slack|
  let optimization_factor := min (slack_diff * 0.1) (realistic_optimization min_slack)
  let route_slack := base_route + optimization_factor
  let upper_bound := max_slack + 0.02
  let lower_bound := min_slack - 0.03
  min (max route_slack lower_bound) upper_bound

/-- Training statistics consumed by the bounds step (min/max/mean/std of
the training target). -/
structure TrainStats where
  min : ℚ
  max : ℚ
  mean : ℚ
  std : ℚ

/-- One row of `apply_training_data_bounds` (line 2432; this second
definition shadows the simpler one at line 455 at every call site):
clamp the prediction to the more permissive of the training-based and
input-based bounds, then replace it by the physics-based estimate when
it still differs from `min(A,B)` by more than 2.0. -/
def apply_training_data_bounds_row (pred place_slack cts_slack : ℚ)
    (route_stats : TrainStats) : ℚ :=
  let min_input := min place_slack cts_slack
  let max_input := max place_slack cts_slack
  let training_margin := route_stats.std * 1
  let training_based_lower := route_stats.min - training_margin
  let training_based_upper := route_stats.max + training_margin
  let input_based_lower := min_input - |min_input| * 0.5
  let input_based_upper := max_input + |max_input| * 0.2
  let final_lower := min input_based_lower training_based_lower
  let final_upper := max input_based_upper training_based_upper
  let bounded := min (max pred final_lower) final_upper
  if 2 < |bounded - min_input| then
    calculate_realistic_route_slack place_slack cts_slack
  else bounded

/-- `apply_training_data_bounds(predictions, place_slacks, cts_slacks,
route_stats, ...)`, line 2432, applied row by row. -/
def apply_training_data_bounds (preds place cts : List ℚ)
    (route_stats : TrainStats) : List ℚ :=
  (preds.zip (place.zip cts)).map
    (fun x => apply_training_data_bounds_row x.1 x.2.1 x.2.2 route_stats)

/-- One row of `improve_route_predictions` (lines 2092-2173), given the
batch statistics of the place/cts columns. -/
def improve_row (place_mean cts_mean place_std cts_std : ℚ)
    (raw_pred place_slack cts_slack : ℚ) : ℚ :=
  let min_input_slack := min place_slack cts_slack
  let max_input_slack := max place_slack cts_slack
  let avg_input_slack := (place_slack + cts_slack) / 2
  let slack_difference := |place_slack - cts_slack|
  let critical_path_weight := 0.88 + min (slack_difference * 0.7) 0.07
  let base_route_slack :=
    min_input_slack * critical_path_weight + avg_input_slack * (1 - critical_path_weight)
  let optimization_potential : ℚ :=
    if 0.8 < |min_input_slack| then 0.005
    else if 0.4 < |min_input_slack| then 0.012
    else if 0.1 < |min_input_slack| then 0.025
    else 0.035
  let optimization_factor :=
    min (optimization_potential * (slack_difference / (|avg_input_slack| + 0.1))) 0.04
  let place_z := (place_slack - place_mean) / (place_std + 1e-8)
  let cts_z := (cts_slack - cts_mean) / (cts_std + 1e-8)
  let correlation_factor := 0.003 * (place_z + cts_z) / 2
  let expected_route_slack := base_route_slack + optimization_factor + correlation_factor
  let prediction_error := |raw_pred - expected_route_slack|
  let relative_error := prediction_error / (|expected_route_slack| + 1e-8)
  let correction_weight : ℚ :=
    if relative_error < 0.01 then 0.05
    else if relative_error < 0.03 then 0.15
    else if relative_error < 0.06 then 0.35
    else if relative_error < 0.12 then 0.6
    else if relative_error < 0.25 then 0.8
    else 0.95
  let corrected := raw_pred * (1 - correction_weight) + expected_route_slack * correction_weight
  let improvement_margin := 0.008 + min (slack_difference * 0.05) 0.025
  let upper_bound := max_input_slack + improvement_margin
  let degradation_margin := 0.015 + min (|min_input_slack| * 0.08) 0.035
  let lower_bound := min_input_slack - degradation_margin
  let corrected2 :=
    if upper_bound < corrected then upper_bound + (corrected - upper_bound) * 0.1
    else if corrected < lower_bound then lower_bound - (lower_bound - corrected) * 0.1
    else corrected
  min (max corrected2 (min_input_slack - 0.1)) (max_input_slack + 0.05)

/-- `improve_route_predictions(raw_predictions, place_slacks,
cts_slacks)`, line 2072.  `sqrtQ` stands for the square root inside
`np.std`. -/
def improve_route_predictions (sqrtQ : ℚ → ℚ) (raw place cts : List ℚ) : List ℚ :=
  let place_mean := npMean place
  let cts_mean := npMean cts
  let place_std := sqrtQ (npVar place)
  let cts_std := sqrtQ (npVar cts)
  (raw.zip (place.zip cts)).map
    (fun x => improve_row place_mean cts_mean place_std cts_std x.1 x.2.1 x.2.2)

/-- `calculate_synthetic_route_slack(place_slack, cts_slack)`, line 2317
(the second definition of this name, shadowing line 467).  `tanhQ` is
`np.tanh`; `sig` is `abs(hash(f"{place:.8f}_{cts:.8f}")) % 10000`. -/
def calculate_synthetic_route_slack (tanhQ : ℚ → ℚ) (sig : ℚ → ℚ → Fin 10000)
    (place_slack cts_slack : ℚ) : ℚ :=
  let min_slack := min place_slack cts_slack
  let max_slack := max place_slack cts_slack
  let avg_slack := (place_slack + cts_slack) / 2
  let slack_difference := |place_slack - cts_slack|
  let slack_magnitude := |avg_slack|
  let timing_pressure := |min_slack|
  let critical_weight : ℚ :=
    if 1 < timing_pressure then 0.95
    else if 0.6 < timing_pressure then 0.92
    else if 0.3 < timing_pressure then 0.88
    else if 0.1 < timing_pressure then 0.84
    else 0.8
  let flexibility_factor : ℚ :=
    if 1 < timing_pressure then 0.002
    else if 0.6 < timing_pressure then 0.005
    else if 0.3 < timing_pressure then 0.012
    else if 0.1 < timing_pressure then 0.022
    else 0.035
  let base_route_slack := min_slack * critical_weight + avg_slack * (1 - critical_weight)
  let optimization_base := flexibility_factor * (slack_difference / (slack_magnitude + 0.05))
  let optimization_multiplier : ℚ :=
    if 0.2 < slack_difference then 1.4
    else if 0.1 < slack_difference then 1.2
    else if 0.05 < slack_difference then 1
    else 0.7
  let optimization_factor := min (optimization_base * optimization_multiplier) 0.045
  let timing_correlation := place_slack * cts_slack / (slack_magnitude + 1e-8)
  let correlation_adjustment := 0.002 * tanhQ timing_correlation
  let signature_factor := ((sig place_slack cts_slack : ℕ) : ℚ) / 10000
  let signature_optimization := optimization_factor * (0.6 + 0.4 * signature_factor)
  let route_slack := base_route_slack + signature_optimization + correlation_adjustment
  let improvement_margin : ℚ :=
    if 0.15 < slack_difference then 0.02
    else if 0.08 < slack_difference then 0.015
    else 0.008
  let upper_bound := max_slack + improvement_margin
  let degradation_margin : ℚ :=
    if 0.5 < timing_pressure then 0.035
    else if 0.2 < timing_pressure then 0.025
    else 0.015
  let lower_bound := min_slack - degradation_margin
  let route_slack2 :=
    if upper_bound < route_slack then upper_bound + (route_slack - upper_bound) * 0.15
    else if route_slack < lower_bound then lower_bound - (lower_bound - route_slack) * 0.15
    else route_slack
  let absolute_upper := max_slack + 0.06
  let absolute_lower := min_slack - 0.08
  min (max route_slack2 absolute_lower) absolute_upper

/-- The statistical estimator of `ensemble_route_predictions`
(lines 2201-2222), per row. -/
def ensemble_statistical_row (place_slack cts_slack : ℚ) : ℚ :=
  let min_slack := min place_slack cts_slack
  let max_slack := max place_slack cts_slack
  let slack_range := max_slack - min_slack
  let stat_pred : ℚ :=
    if 0.5 < |min_slack| then min_slack * 0.94 + max_slack * 0.06
    else if 0.2 < |min_slack| then min_slack * 0.9 + max_slack * 0.1
    else min_slack * 0.85 + max_slack * 0.15
  stat_pred + min (slack_range * 0.08) 0.03

/-- The adaptive weight vector of lines 2241-2248, selected by the
standard deviation of the four estimates.  `np.std < c` is encoded as
the population variance being `< c^2`, which is exactly equivalent for
`c > 0`. -/
def ensemble_weights (raw physics synthetic stat : ℚ) : ℚ × ℚ × ℚ × ℚ :=
  let pvar := npVar [raw, physics, synthetic, stat]
  if pvar < 0.0001 then (0.3, 0.3, 0.25, 0.15)
  else if pvar < 0.0009 then (0.25, 0.35, 0.3, 0.1)
  else if pvar < 0.0036 then (0.15, 0.25, 0.4, 0.2)
  else (0.1, 0.2, 0.55, 0.15)

/-- One row of the combination step of `ensemble_route_predictions`
(lines 2229-2258): the weighted sum of the four estimates under the
adaptively selected weight vector. -/
def ensemble_combine (raw physics synthetic stat : ℚ) : ℚ :=
  let w := ensemble_weights raw physics synthetic stat
  raw * w.1 + physics * w.2.1 + synthetic * w.2.2.1 + stat * w.2.2.2

/-- `ensemble_route_predictions(raw_predictions, place_slacks,
cts_slacks)`, line 2177. -/
def ensemble_route_predictions (sqrtQ tanhQ : ℚ → ℚ) (sig : ℚ → ℚ → Fin 10000)
    (raw place cts : List ℚ) : List ℚ :=
  let physics := improve_route_predictions sqrtQ raw place cts
  let synthetic := (place.zip cts).map (fun x => calculate_synthetic_route_slack tanhQ sig x.1 x.2)
  let stat := (place.zip cts).map (fun x => ensemble_statistical_row x.1 x.2)
  (raw.zip (physics.zip (synthetic.zip stat))).map
    (fun x => ensemble_combine x.1 x.2.1 x.2.2.1 x.2.2.2)

/-- The correction pipeline of the served predict endpoint
(lines 2998-3019): `improve_route_predictions` followed by
`apply_training_data_bounds`.  `ensemble_route_predictions` is not
invoked anywhere on this path. -/
def predict_route_correction (sqrtQ : ℚ → ℚ) (raw place cts : List ℚ)
    (route_stats : TrainStats) : List ℚ :=
  apply_training_data_bounds (improve_route_predictions sqrtQ raw place cts)
    place cts route_stats

end Pred

namespace Pred

/-! ## Theorems -/

/-! ### String lemmas -/

/-- `splitOnChar` never returns an empty list of parts. -/
theorem splitOnChar_ne_nil (c : Char) (s : List Char) : splitOnChar c s ≠ [] := by
  cases s with
  | nil => simp [splitOnChar]
  | cons x xs =>
    simp only [splitOnChar]
    rcases h : splitOnChar c xs with _ | ⟨h', t⟩
    · simp
    · dsimp only
      split <;> simp

/-- Splitting a separator-free string is the identity. -/
theorem splitOnChar_of_not_mem {c : Char} {s : List Char} (h : c ∉ s) :
    splitOnChar c s = [s] := by
  induction s with
  | nil => rfl
  | cons x xs ih =>
    simp only [List.mem_cons, not_or] at h
    have : (x == c) = false := by
      simp only [beq_eq_false_iff_ne, ne_eq]
      exact fun e => h.1 e.symm
    simp only [splitOnChar, ih h.2, this]
    simp

/-- Splitting at the separator between a separator-free head and a tail. -/
theorem splitOnChar_append {c : Char} {a : List Char} (b : List Char)
    (h : c ∉ a) : splitOnChar c (a ++ c :: b) = a :: splitOnChar c b := by
  induction a with
  | nil =>
    simp only [List.nil_append, splitOnChar]
    rcases hb : splitOnChar c b with _ | ⟨h', t⟩
    · exact absurd hb (splitOnChar_ne_nil c b)
    · simp
  | cons x xs ih =>
    simp only [List.mem_cons, not_or] at h
    have : (x == c) = false := by
      simp only [beq_eq_false_iff_ne, ne_eq]
      exact fun e => h.1 e.symm
    simp only [List.cons_append, splitOnChar, List.append_eq, ih h.2, this]
    simp

/-- Joining slash-free segments and splitting on `/` round-trips. -/
theorem splitOnChar_joinOn (c : Char) (segs : List (List Char))
    (hne : segs ≠ []) (hfree : ∀ p ∈ segs, c ∉ p) :
    splitOnChar c (joinOn c segs) = segs := by
  induction segs with
  | nil => exact absurd rfl hne
  | cons p ps ih =>
    cases ps with
    | nil =>
      simpa [joinOn] using splitOnChar_of_not_mem (hfree p (by simp))
    | cons q qs =>
      have h1 : c ∉ p := hfree p (by simp)
      have h2 : ∀ r ∈ q :: qs, c ∉ r := fun r hr => hfree r (by simp [hr])
      simp only [joinOn]
      rw [splitOnChar_append _ h1, ih (by simp) h2]

/-! ### C3: endpoint normalization -/

/-- C3, counterexample.  The claim says `"top/u1/reg[3]"` and
`"TOP/U1/REG[3]"` both normalize to `"u1/reg[3]"`.  The effective
`normalize_endpoint` (line 1361, shadowing the trim-and-lowercase
definition of line 182) keeps the last two segments verbatim, so the
upper-case endpoint normalizes to `"U1/REG[3]"`, a different key. -/
theorem C3_counterexample :
    normalize_endpoint (String.toList "TOP/U1/REG[3]") ≠ String.toList "u1/reg[3]" ∧
    normalize_endpoint (String.toList "TOP/U1/REG[3]") ≠
      normalize_endpoint (String.toList "top/u1/reg[3]") := by
  constructor <;> decide

/-- C3, amended: the effective normalization neither trims nor
lower-cases; it reduces a slash-delimited identifier to its last two
path segments joined by `/` and leaves slash-free identifiers
unchanged.  In particular `"top/u1/reg[3]"` maps to `"u1/reg[3]"` and
`"TOP/U1/REG[3]"` to `"U1/REG[3]"`: distinct join keys. -/
theorem C3_normalize_endpoint_amended :
    (∀ (l : List Name) (a b : Name),
      (∀ p ∈ l, '/' ∉ p) → '/' ∉ a → '/' ∉ b →
      normalize_endpoint (joinOn '/' (l ++ [a, b])) = a ++ '/' :: b) ∧
    (∀ s : Name, '/' ∉ s → normalize_endpoint s = s) ∧
    normalize_endpoint (String.toList "top/u1/reg[3]") = String.toList "u1/reg[3]" ∧
    normalize_endpoint (String.toList "TOP/U1/REG[3]") = String.toList "U1/REG[3]" := by
  refine ⟨?_, ?_, by decide, by decide⟩
  · intro l a b hl ha hb
    have hfree : ∀ p ∈ l ++ [a, b], '/' ∉ p := by
      intro p hp
      rcases List.mem_append.mp hp with h | h
      · exact hl p h
      · simp only [List.mem_cons, List.not_mem_nil, or_false] at h
        rcases h with rfl | rfl
        · exact ha
        · exact hb
    rw [normalize_endpoint, splitOnChar_joinOn '/' (l ++ [a, b]) (by simp) hfree]
    simp
  · intro s hs
    rw [normalize_endpoint, splitOnChar_of_not_mem hs, List.reverse_singleton]

/-- C3 witness: the amended normalization at the spec's example. -/
theorem C3_amended_witness :
    normalize_endpoint
      (joinOn '/' ([String.toList "top"] ++ [String.toList "u1", String.toList "reg[3]"])) =
      String.toList "u1" ++ '/' :: String.toList "reg[3]" :=
  C3_normalize_endpoint_amended.1 [String.toList "top"] (String.toList "u1")
    (String.toList "reg[3]") (by decide) (by decide) (by decide)

/-! ### C10: physics-based tier weighting -/

/-- C10: the physics-based estimator's four timing-pressure tiers map
to weights 0.95 / 0.92 / 0.88 / 0.85, and at `A = -0.5`, `B = -0.3`
(pressure 0.5, the "> 0.2" tier) the critical weight is 0.88 and the
base blend is `-0.5 * 0.88 + (-0.4) * 0.12 = -0.488`. -/
theorem C10_realistic_tiers :
    (∀ m : ℚ, 1 < |m| → realistic_weight_to_worse m = 0.95) ∧
    (∀ m : ℚ, |m| ≤ 1 → 0.5 < |m| → realistic_weight_to_worse m = 0.92) ∧
    (∀ m : ℚ, |m| ≤ 0.5 → 0.2 < |m| → realistic_weight_to_worse m = 0.88) ∧
    (∀ m : ℚ, |m| ≤ 0.2 → realistic_weight_to_worse m = 0.85) ∧
    realistic_weight_to_worse (min (-0.5 : ℚ) (-0.3)) = 0.88 ∧
    realistic_base_route (-0.5) (-0.3) = -0.488 := by
  have habs : |(-0.5 : ℚ)| = 0.5 := by
    rw [abs_of_neg (by norm_num)]; norm_num
  have hmin : min (-0.5 : ℚ) (-0.3) = -0.5 := by norm_num [min_def]
  refine ⟨?_, ?_, ?_, ?_, ?_, ?_⟩
  · intro m h
    rw [realistic_weight_to_worse, if_pos h]
  · intro m h1 h2
    rw [realistic_weight_to_worse, if_neg (by linarith), if_pos h2]
  · intro m h1 h2
    rw [realistic_weight_to_worse, if_neg (by linarith), if_neg (by linarith), if_pos h2]
  · intro m h1
    rw [realistic_weight_to_worse, if_neg (by linarith), if_neg (by linarith),
      if_neg (by linarith)]
  · rw [hmin, realistic_weight_to_worse, habs]
    norm_num
  · rw [realistic_base_route]
    rw [hmin, realistic_weight_to_worse, habs]
    norm_num

/-- C10 witness: the top tier at pressure 2. -/
theorem C10_witness : realistic_weight_to_worse 2 = 0.95 :=
  C10_realistic_tiers.1 2 (by rw [abs_of_pos] <;> norm_num)

/-! ### C5: ensemble combination -/

/-- C5: the combined estimate is the weighted sum of the four estimates
`[raw, physics, synthetic, statistical]` under the weight vector
selected by their standard deviation (`std < c` iff the population
variance is `< c^2`): var < 0.01² selects [.30,.30,.25,.15],
var < 0.03² selects [.25,.35,.30,.10], var < 0.06² selects
[.15,.25,.40,.20], else [.10,.20,.55,.15]; and the spec's example
[0.10, 0.12, 0.11, 0.30] (variance 0.00681875 ≥ 0.06²) selects the
low-agreement vector. -/
theorem C5_ensemble_combination :
    (∀ r p s t : ℚ, ensemble_combine r p s t =
      r * (ensemble_weights r p s t).1 + p * (ensemble_weights r p s t).2.1 +
      s * (ensemble_weights r p s t).2.2.1 + t * (ensemble_weights r p s t).2.2.2) ∧
    (∀ r p s t : ℚ, npVar [r, p, s, t] < 0.0001 →
      ensemble_weights r p s t = (0.3, 0.3, 0.25, 0.15)) ∧
    (∀ r p s t : ℚ, 0.0001 ≤ npVar [r, p, s, t] → npVar [r, p, s, t] < 0.0009 →
      ensemble_weights r p s t = (0.25, 0.35, 0.3, 0.1)) ∧
    (∀ r p s t : ℚ, 0.0009 ≤ npVar [r, p, s, t] → npVar [r, p, s, t] < 0.0036 →
      ensemble_weights r p s t = (0.15, 0.25, 0.4, 0.2)) ∧
    (∀ r p s t : ℚ, 0.0036 ≤ npVar [r, p, s, t] →
      ensemble_weights r p s t = (0.1, 0.2, 0.55, 0.15)) ∧
    ensemble_weights 0.1 0.12 0.11 0.3 = (0.1, 0.2, 0.55, 0.15) ∧
    ensemble_combine 0.1 0.12 0.11 0.3 = 0.1395 := by
  have hvar : npVar [(0.1 : ℚ), 0.12, 0.11, 0.3] = 0.00681875 := by
    norm_num [npVar, npMean]
  refine ⟨fun r p s t => rfl, ?_, ?_, ?_, ?_, ?_, ?_⟩
  · intro r p s t h
    rw [ensemble_weights, if_pos h]
  · intro r p s t h1 h2
    rw [ensemble_weights, if_neg (by linarith), if_pos h2]
  · intro r p s t h1 h2
    rw [ensemble_weights, if_neg (by linarith), if_neg (by linarith), if_pos h2]
  · intro r p s t h1
    rw [ensemble_weights, if_neg (by linarith), if_neg (by linarith), if_neg (by linarith)]
  · rw [ensemble_weights, hvar]
    norm_num
  · rw [ensemble_combine]
    rw [ensemble_weights, hvar]
    norm_num

/-- C5 witness: the low-agreement tier at the spec's example. -/
theorem C5_witness : ensemble_weights 0.1 0.12 0.11 0.3 = (0.1, 0.2, 0.55, 0.15) :=
  C5_ensemble_combination.2.2.2.2.1 0.1 0.12 0.11 0.3 (by norm_num [npVar, npMean])

/-! ### C4: bounds invariant -/

/-- C4: per row, the bounds-enforcement step returns the prediction
clamped to `[lower, upper]`, where `lower` is the smaller of
`stats.min - 1*std` and `min(A,B) - 0.5*|min(A,B)|` and `upper` the
larger of `stats.max + 1*std` and `max(A,B) + 0.2*|max(A,B)|` — except
when the clamped value differs from `min(A,B)` by more than 2.0, in
which case it returns exactly `calculate_realistic_route_slack A B`. -/
theorem C4_training_bounds (pred A B : ℚ) (s : TrainStats) :
    (2 < |min (max pred (min (s.min - s.std * 1) (min A B - |min A B| * 0.5)))
        (max (s.max + s.std * 1) (max A B + |max A B| * 0.2)) - min A B| ∧
      apply_training_data_bounds_row pred A B s = calculate_realistic_route_slack A B) ∨
    (apply_training_data_bounds_row pred A B s =
        min (max pred (min (s.min - s.std * 1) (min A B - |min A B| * 0.5)))
          (max (s.max + s.std * 1) (max A B + |max A B| * 0.2)) ∧
      min (s.min - s.std * 1) (min A B - |min A B| * 0.5) ≤
        apply_training_data_bounds_row pred A B s ∧
      apply_training_data_bounds_row pred A B s ≤
        max (s.max + s.std * 1) (max A B + |max A B| * 0.2)) := by
  set lower := min (s.min - s.std * 1) (min A B - |min A B| * 0.5) with hlow
  set upper := max (s.max + s.std * 1) (max A B + |max A B| * 0.2) with hup
  have hrow : apply_training_data_bounds_row pred A B s =
      if 2 < |min (max pred lower) upper - min A B| then
        calculate_realistic_route_slack A B
      else min (max pred lower) upper := by
    rw [apply_training_data_bounds_row]
    rw [min_comm (min A B - |min A B| * 0.5) (s.min - s.std * 1),
      max_comm (max A B + |max A B| * 0.2) (s.max + s.std * 1)]
  have hlu : lower ≤ upper := by
    have h1 : (0 : ℚ) ≤ |min A B| := abs_nonneg _
    have h2 : (0 : ℚ) ≤ |max A B| := abs_nonneg _
    have h3 : min A B ≤ max A B := min_le_max
    calc lower ≤ min A B - |min A B| * 0.5 := min_le_right _ _
      _ ≤ max A B + |max A B| * 0.2 := by linarith
      _ ≤ upper := le_max_right _ _
  by_cases h : 2 < |min (max pred lower) upper - min A B|
  · left
    exact ⟨h, by rw [hrow, if_pos h]⟩
  · right
    have hres : apply_training_data_bounds_row pred A B s = min (max pred lower) upper := by
      rw [hrow, if_neg h]
    refine ⟨hres, ?_, ?_⟩
    · rw [hres]
      exact le_min (le_max_right pred lower) hlu
    · rw [hres]
      exact min_le_right _ _

/-! ### C8: alignment deduplication -/

/-- C7, counterexample.  The claim says a column with declared numeric
type always qualifies.  In the code both the numeric-dtype and the
object-dtype branches additionally require strictly more than 80
percent of the table's rows (not of the non-missing entries) to coerce:
a float64 column with 4 numeric values out of 5 rows (one NaN) fails
`4 > 0.8 * 5` and is dropped. -/
theorem C7_counterexample :
    Dtype.isNumericDtype .float64 = true ∧
    detect_feature_columns (fun _ => none)
      ⟨5, [⟨String.toList "f", .float64, [.num 1, .num 2, .num 3, .num 4, .missing]⟩]⟩
      none = [] := by
  refine ⟨rfl, ?_⟩
  norm_num [detect_feature_columns, toNumericOk, Dtype.isNumericDtype, List.filterMap]

/-- C7, amended: a non-target column qualifies iff its declared dtype
is in the numeric list or is `object`, and the number of its entries
that coerce to numbers strictly exceeds 80 percent of the table's row
count.  (In particular declared-numeric columns with at least 20
percent missing entries are dropped, and other dtypes never qualify.) -/
theorem C7_detect_amended (pN : Name → Option ℚ) (df : Tbl) (target : Option Name)
    (n : Name) :
    n ∈ detect_feature_columns pN df target ↔
      ∃ c ∈ df.cols, c.name = n ∧
        (∀ t, target = some t → df.cols.any (fun c' => c'.name == t) = true → n ≠ t) ∧
        (c.dtype.isNumericDtype = true ∨ c.dtype = .object) ∧
        (0.8 : ℚ) * df.nrows < ((c.vals.filterMap (toNumericOk pN)).length : ℚ) := by
  rw [detect_feature_columns.eq_def]
  simp only [List.mem_map, List.mem_filter, Bool.and_eq_true, Bool.not_eq_true']
  constructor
  · rintro ⟨c, ⟨hc, hexcl, hcond⟩, rfl⟩
    refine ⟨c, hc, rfl, ?_, ?_⟩
    · intro t ht hany he
      rw [ht] at hexcl
      simp only [hany, if_true] at hexcl
      simp [he] at hexcl
    · rcases hdt : c.dtype.isNumericDtype with _ | _
      · rw [hdt] at hcond
        simp only [Bool.false_eq_true, if_false] at hcond
        rcases hobj : (c.dtype == Dtype.object) with _ | _
        · rw [hobj] at hcond
          simp at hcond
        · rw [hobj] at hcond
          simp only [if_true] at hcond
          exact ⟨Or.inr (by simpa using hobj), by simpa using hcond⟩
      · rw [hdt] at hcond
        simp only [if_true] at hcond
        exact ⟨Or.inl rfl, by simpa using hcond⟩
  · rintro ⟨c, hc, rfl, hexcl, hdt, hlt⟩
    refine ⟨c, ⟨hc, ?_, ?_⟩, rfl⟩
    · cases target with
      | none => simp
      | some t =>
        simp only
        by_cases hany : df.cols.any (fun c' => c'.name == t) = true
        · rw [if_pos hany]
          have : c.name ≠ t := hexcl t rfl hany
          simp [this]
        · rw [if_neg hany]
          simp
    · rcases hdt with h | h
      · rw [h]
        simpa using hlt
      · rcases hnum : c.dtype.isNumericDtype with _ | _
        · rw [h]
          simp only [Dtype.isNumericDtype, Bool.false_eq_true, if_false, beq_self_eq_true,
            if_true]
          simpa using hlt
        · simp only [hnum, if_true]
          simpa using hlt

/-! ### C2: the Feature Reconstructor and raising -/

/-- C2, counterexample.  The claim says `recreate_trained_features`
never raises, in particular when a base column is absent.  Line 1165
raises `ValueError("Missing base columns in data: ...")` exactly in
that case: here the raw table has only column `a` while the base
columns name `b`. -/
theorem C2_counterexample :
    recreate_trained_features (fun q => q)
      ⟨1, [⟨String.toList "a", true, [some 1]⟩]⟩
      [String.toList "b"] [String.toList "b"] = .error () := by
  rfl

/-- C2, amended: *provided every base column is present in the raw
table*, the reconstructor returns an engineered table (it does not
raise), whose columns are exactly the trained feature names in order,
and any trained feature the reconstruction loop could not rebuild comes
out as the constant-0 column. -/
theorem C2_recreate_total_amended (lg : ℚ → ℚ) (df : RawDF) (trained base : List Name)
    (hbase : ∀ b ∈ base, (findCol df b).isSome) :
    ∃ out, recreate_trained_features lg df trained base = .ok out ∧
      out.nrows = df.nrows ∧
      out.cols.map EngCol.name = trained ∧
      ∀ c ∈ trained, (recreateEngineered lg df trained base).hasCol c = false →
        (⟨c, List.replicate df.nrows (some 0)⟩ : EngCol) ∈ out.cols := by
  have hall : base.all (fun b => (findCol df b).isSome) = true := by
    rw [List.all_eq_true]
    exact fun b hb => by simpa using hbase b hb
  rw [recreate_trained_features, if_pos hall]
  refine ⟨_, rfl, rfl, ?_, ?_⟩
  · rw [List.map_map]
    have : (EngCol.name ∘ fun c =>
        if (recreateEngineered lg df trained base).hasCol c then
          (⟨c, (recreateEngineered lg df trained base).get c⟩ : EngCol)
        else ⟨c, List.replicate df.nrows (some 0)⟩) = id := by
      funext c
      simp only [Function.comp_apply]
      split <;> rfl
    rw [this, List.map_id]
  · intro c hc hnone
    refine List.mem_map.mpr ⟨c, hc, ?_⟩
    simp [hnone]

/-- C2 amended witness: a table with base column `a` present and an
unreconstructible trained name `weird` comes back `.ok` with `weird`
zero-filled. -/
theorem C2_amended_witness :
    ∃ out, recreate_trained_features (fun q => q)
        ⟨1, [⟨String.toList "a", true, [some 1]⟩]⟩
        [String.toList "a", String.toList "weird"] [String.toList "a"] = .ok out ∧
      out.nrows = 1 ∧
      out.cols.map EngCol.name = [String.toList "a", String.toList "weird"] ∧
      ∀ c ∈ [String.toList "a", String.toList "weird"],
        (recreateEngineered (fun q => q)
          ⟨1, [⟨String.toList "a", true, [some 1]⟩]⟩
          [String.toList "a", String.toList "weird"] [String.toList "a"]).hasCol c = false →
        (⟨c, List.replicate 1 (some 0)⟩ : EngCol) ∈ out.cols :=
  C2_recreate_total_amended (fun q => q)
    ⟨1, [⟨String.toList "a", true, [some 1]⟩]⟩
    [String.toList "a", String.toList "weird"] [String.toList "a"]
    (by decide)

/-! ### C9: ambiguous-underscore reconstruction -/

/-- C9: for the trained name `arrival_time_slack_ratio` with base
columns `arrival_time` and `slack`, the split search returns the split
`(arrival_time, slack)` — not `(arrival, time_slack)` — and the
reconstructed feature is `arrival_time / (|slack| + 1e-8)`. -/
theorem C9_ambiguous_underscore :
    firstValidSplit
      (splitOnChar '_'
        (replaceAll (String.toList "_ratio") [] (String.toList "arrival_time_slack_ratio")))
      [String.toList "arrival_time", String.toList "slack"] =
      some (String.toList "arrival_time", String.toList "slack") ∧
    recreate_trained_features (fun q => q)
      ⟨1, [⟨String.toList "arrival_time", true, [some 6]⟩,
        ⟨String.toList "slack", true, [some 2]⟩]⟩
      [String.toList "arrival_time", String.toList "slack",
        String.toList "arrival_time_slack_ratio"]
      [String.toList "arrival_time", String.toList "slack"] =
      .ok ⟨1, [⟨String.toList "arrival_time", [some 6]⟩, ⟨String.toList "slack", [some 2]⟩,
        ⟨String.toList "arrival_time_slack_ratio",
          [some ((6 : ℚ) / (|(2 : ℚ)| + 1e-8))]⟩]⟩ := by
  constructor
  · decide
  · rfl

/-! ### C1: round-trip of engineer and reconstruct -/

/-- C1, counterexample.  A base column whose own name contains the
reserved substring `_ratio` breaks the round-trip: on the table with
numeric column `x_ratio = [2]`, the Feature Engineer produces
`x_ratio_squared = [4]` (and `x_ratio_log`), but the Feature
Reconstructor pattern-matches `x_ratio_squared` as a `_ratio` feature
(substring test, line 1181), strips *all* occurrences of `_ratio`,
fails every split, and zero-fills the column. -/
theorem C1_counterexample :
    create_dynamic_features (fun q => q)
      ⟨1, [⟨String.toList "x_ratio", true, [some 2]⟩]⟩ [String.toList "x_ratio"] =
      .ok ⟨1, [⟨String.toList "x_ratio", [some 2]⟩,
        ⟨String.toList "x_ratio_squared", [some ((2 : ℚ) ^ 2)]⟩,
        ⟨String.toList "x_ratio_log", [some ((2 : ℚ) + 1e-8)]⟩]⟩ ∧
    ((2 : ℚ) ^ 2 = 4) ∧
    recreate_trained_features (fun q => q)
      ⟨1, [⟨String.toList "x_ratio", true, [some 2]⟩]⟩
      [String.toList "x_ratio", String.toList "x_ratio_squared", String.toList "x_ratio_log"]
      [String.toList "x_ratio"] ≠
    create_dynamic_features (fun q => q)
      ⟨1, [⟨String.toList "x_ratio", true, [some 2]⟩]⟩ [String.toList "x_ratio"] := by
  have hc : create_dynamic_features (fun q => q)
      ⟨1, [⟨String.toList "x_ratio", true, [some 2]⟩]⟩ [String.toList "x_ratio"] =
      .ok ⟨1, [⟨String.toList "x_ratio", [some 2]⟩,
        ⟨String.toList "x_ratio_squared", [some ((2 : ℚ) ^ 2)]⟩,
        ⟨String.toList "x_ratio_log", [some ((2 : ℚ) + 1e-8)]⟩]⟩ := by rfl
  have hr : recreate_trained_features (fun q => q)
      ⟨1, [⟨String.toList "x_ratio", true, [some 2]⟩]⟩
      [String.toList "x_ratio", String.toList "x_ratio_squared", String.toList "x_ratio_log"]
      [String.toList "x_ratio"] =
      .ok ⟨1, [⟨String.toList "x_ratio", [some 2]⟩,
        ⟨String.toList "x_ratio_squared", [some 0]⟩,
        ⟨String.toList "x_ratio_log", [some 0]⟩]⟩ := by rfl
  refine ⟨hc, by norm_num, ?_⟩
  rw [hr, hc]
  intro h
  norm_num at h

/-! ### C6: the served predict path versus the four-estimator ensemble -/

/-- On the one-row batch `raw = -0.4902`, `place = -0.5`, `cts = -0.3`
(whose batch standard deviations are 0), `improve_route_predictions`
returns the raw prediction unchanged: the expected route slack is
exactly `-0.495 + 0.0048 = -0.4902`, so the correction and both bounds
are the identity. -/
theorem improve_single_row_concrete (sqrtQ : ℚ → ℚ) (h0 : sqrtQ 0 = 0) :
    improve_route_predictions sqrtQ [-0.4902] [-0.5] [-0.3] = [-0.4902] := by
  have hm1 : npMean [(-0.5 : ℚ)] = -0.5 := by norm_num [npMean]
  have hm2 : npMean [(-0.3 : ℚ)] = -0.3 := by norm_num [npMean]
  have hv1 : npVar [(-0.5 : ℚ)] = 0 := by norm_num [npVar, npMean]
  have hv2 : npVar [(-0.3 : ℚ)] = 0 := by norm_num [npVar, npMean]
  have hrow : improve_row (-0.5) (-0.3) 0 0 (-0.4902) (-0.5) (-0.3) = -0.4902 := by
    norm_num [improve_row, abs_of_nonneg, min_def, max_def]
  simp only [improve_route_predictions, hm1, hm2, hv1, hv2, h0, List.zip,
    List.zipWith, List.map]
  rw [hrow]

set_option maxHeartbeats 1600000 in
/-- The synthetic estimator at `(-0.5, -0.3)` equals
`-0.488 + 0.0064*(0.6 + 0.4*s/10000) + 0.002*t` with `s ∈ [0, 9999]`
the hash signature and `|t| ≤ 1` the tanh value, hence lies in
`[-0.48616, -0.4796]`. -/
theorem synthetic_concrete_bounds (tanhQ : ℚ → ℚ) (sig : ℚ → ℚ → Fin 10000)
    (hb : ∀ x, |tanhQ x| ≤ 1) :
    -0.48616 ≤ calculate_synthetic_route_slack tanhQ sig (-0.5) (-0.3) ∧
    calculate_synthetic_route_slack tanhQ sig (-0.5) (-0.3) ≤ -0.4796 := by
  simp only [calculate_synthetic_route_slack]
  have ht := abs_le.mp (hb ((-0.5 : ℚ) * (-0.3) / (|((-0.5 : ℚ) + (-0.3)) / 2| + 1e-8)))
  have hs0 : (0 : ℚ) ≤ ((sig (-0.5 : ℚ) (-0.3) : ℕ) : ℚ) := Nat.cast_nonneg _
  have hs1 : ((sig (-0.5 : ℚ) (-0.3) : ℕ) : ℚ) ≤ 9999 := by
    exact_mod_cast Nat.le_of_lt_succ (sig (-0.5 : ℚ) (-0.3)).isLt
  set t := tanhQ ((-0.5 : ℚ) * (-0.3) / (|((-0.5 : ℚ) + (-0.3)) / 2| + 1e-8)) with hteq
  set s := ((sig (-0.5 : ℚ) (-0.3) : ℕ) : ℚ) with hseq
  norm_num [abs_of_nonneg, min_def, max_def]
  constructor <;> split_ifs <;> nlinarith [ht.1, ht.2, hs0, hs1]

/-- The statistical estimator at `(-0.5, -0.3)`. -/
theorem stat_row_concrete : ensemble_statistical_row (-0.5) (-0.3) = -0.464 := by
  norm_num [ensemble_statistical_row, abs_of_nonneg, min_def, max_def]

/-- C6: on the served predict path the correction applied to the raw
regressor output is `improve_route_predictions` followed by
`apply_training_data_bounds` (first conjunct holds definitionally: the
embedding of lines 2998-3019 is exactly that composition, and
`ensemble_route_predictions` is never invoked there); and there are
inputs on which this final prediction differs from the four-estimator
weighted combination — here the one-row batch `raw = -0.4902`,
`A = -0.5`, `B = -0.3` under wide training bounds, for every value of
the tanh and hash-signature parameters. -/
theorem C6_predict_path_not_ensemble (sqrtQ tanhQ : ℚ → ℚ) (sig : ℚ → ℚ → Fin 10000)
    (h0 : sqrtQ 0 = 0) (hb : ∀ x, |tanhQ x| ≤ 1) :
    predict_route_correction sqrtQ [-0.4902] [-0.5] [-0.3] ⟨-100, 100, 0, 0⟩ =
      apply_training_data_bounds (improve_route_predictions sqrtQ [-0.4902] [-0.5] [-0.3])
        [-0.5] [-0.3] ⟨-100, 100, 0, 0⟩ ∧
    predict_route_correction sqrtQ [-0.4902] [-0.5] [-0.3] ⟨-100, 100, 0, 0⟩ ≠
      ensemble_route_predictions sqrtQ tanhQ sig [-0.4902] [-0.5] [-0.3] := by
  have himp := improve_single_row_concrete sqrtQ h0
  refine ⟨rfl, ?_⟩
  have hpred : predict_route_correction sqrtQ [-0.4902] [-0.5] [-0.3] ⟨-100, 100, 0, 0⟩ =
      [-0.4902] := by
    rw [predict_route_correction, himp]
    norm_num [apply_training_data_bounds, apply_training_data_bounds_row, List.zip,
      List.zipWith, List.map, abs_of_nonneg, min_def, max_def]
  have hsyn := synthetic_concrete_bounds tanhQ sig hb
  have hens : ensemble_route_predictions sqrtQ tanhQ sig [-0.4902] [-0.5] [-0.3] =
      [ensemble_combine (-0.4902) (-0.4902)
        (calculate_synthetic_route_slack tanhQ sig (-0.5) (-0.3)) (-0.464)] := by
    simp only [ensemble_route_predictions]
    rw [himp]
    simp only [List.zip, List.zipWith, List.map, stat_row_concrete]
  set σ := calculate_synthetic_route_slack tanhQ sig (-0.5) (-0.3) with hσ
  have hprod : (0 : ℚ) ≤ (σ - (-0.48616)) * ((-0.4796) - σ) :=
    mul_nonneg (by linarith [hsyn.1]) (by linarith [hsyn.2])
  have hvlo : (0.0001 : ℚ) ≤ npVar [(-0.4902 : ℚ), -0.4902, σ, -0.464] := by
    simp only [npVar, npMean, List.sum_cons, List.sum_nil, List.map, List.length_cons,
      List.length_nil]
    nlinarith [hsyn.1, hsyn.2, hprod, sq_nonneg (3 * σ + 1.4444)]
  have hvhi : npVar [(-0.4902 : ℚ), -0.4902, σ, -0.464] < 0.0009 := by
    simp only [npVar, npMean, List.sum_cons, List.sum_nil, List.map, List.length_cons,
      List.length_nil]
    nlinarith [hsyn.1, hsyn.2, hprod, sq_nonneg (3 * σ + 1.4444)]
  have hcomb : ensemble_combine (-0.4902) (-0.4902) σ (-0.464) =
      (-0.4902) * 0.25 + (-0.4902) * 0.35 + σ * 0.3 + (-0.464) * 0.1 := by
    rw [ensemble_combine, ensemble_weights, if_neg (not_lt.mpr hvlo), if_pos hvhi]
  rw [hpred, hens, hcomb]
  intro h
  have := List.head_eq_of_cons_eq h
  nlinarith [hsyn.1, hsyn.2]

/-! ### String lemmas for the round-trip proof (C1, amended) -/

/-- `isPfx` decides `List.IsPrefix`. -/
theorem isPfx_iff (p s : List Char) : isPfx p s = true ↔ p <+: s := by
  induction p generalizing s with
  | nil => simp [isPfx]
  | cons a q ih =>
    cases s with
    | nil => simp [isPfx]
    | cons x xs =>
      rw [isPfx, Bool.and_eq_true, beq_iff_eq, List.cons_prefix_cons, ih]

/-- Every string is a prefix of itself. -/
theorem isPfx_self (s : List Char) : isPfx s s = true :=
  (isPfx_iff s s).mpr (List.prefix_refl s)

theorem isPfx_eq_false {p s : List Char} (h : ¬ p <+: s) : isPfx p s = false := by
  rcases hb : isPfx p s with _ | _
  · rfl
  · exact absurd ((isPfx_iff p s).mp hb) h

/-- `containsSub` decides `List.IsInfix`. -/
theorem containsSub_iff (p s : List Char) : containsSub p s = true ↔ p <:+: s := by
  induction s with
  | nil =>
    rw [containsSub, isPfx_iff]
    simp
  | cons x xs ih =>
    rw [containsSub, Bool.or_eq_true, isPfx_iff, ih, List.infix_cons_iff]

theorem containsSub_eq_false {p s : List Char} (h : ¬ p <:+: s) : containsSub p s = false := by
  rcases hb : containsSub p s with _ | _
  · rfl
  · exact absurd ((containsSub_iff p s).mp hb) h

/-- An occurrence of a pattern starting with `'_'` cannot begin inside
an underscore-free left part. -/
theorem infix_underscore_right (p u v : List Char) (hu : '_' ∉ u) :
    ('_' :: p) <:+: (u ++ v) ↔ ('_' :: p) <:+: v := by
  induction u with
  | nil => simp
  | cons c cs ih =>
    simp only [List.mem_cons, not_or] at hu
    rw [List.cons_append, List.infix_cons_iff, ih hu.2]
    constructor
    · rintro (h | h)
      · exfalso
        obtain ⟨r, hr⟩ := h
        injection hr with h1 _
        exact hu.1 h1
      · exact h
    · exact Or.inr

/-- A token without underscores, not contained in `b`, is no prefix of
`b ++ '_' :: w`. -/
theorem not_prefix_token (tok b w : List Char) (htok : '_' ∉ tok) (_hb : '_' ∉ b)
    (hninf : ¬ tok <:+: b) : ¬ tok <+: (b ++ '_' :: w) := by
  intro hpre
  obtain ⟨r, hr⟩ := hpre
  rcases le_or_lt tok.length b.length with hle | hlt
  · apply hninf
    have h2 : tok = (b ++ '_' :: w).take tok.length := by
      rw [← hr, List.take_left]
    rw [List.take_append_of_le_length hle] at h2
    rw [h2]
    exact (List.take_prefix _ b).isInfix
  · apply htok
    have h3 := congrArg (List.take (b.length + 1)) hr
    rw [List.take_append_of_le_length (by omega)] at h3
    have h4 : (b ++ '_' :: w).take (b.length + 1) = b ++ ['_'] := by
      rw [List.take_append]
      simp
    rw [h4] at h3
    have h5 : '_' ∈ tok.take (b.length + 1) := by
      rw [h3]
      simp
    exact List.take_subset _ _ h5

/-- Fuel irrelevance for the replace scan. -/
theorem replaceAllF_congr (pat rep : List Char) :
    ∀ (f1 : ℕ) (s : List Char) (f2 : ℕ), s.length ≤ f1 → s.length ≤ f2 →
      replaceAllF pat rep f1 s = replaceAllF pat rep f2 s := by
  intro f1
  induction f1 with
  | zero =>
    intro s f2 h1 _
    have hs : s = [] := List.eq_nil_of_length_eq_zero (Nat.le_zero.mp h1)
    subst hs
    cases f2 <;> rfl
  | succ f ih =>
    intro s f2 h1 h2
    cases s with
    | nil => cases f2 <;> rfl
    | cons x xs =>
      cases f2 with
      | zero => simp at h2
      | succ g =>
        rw [replaceAllF, replaceAllF]
        by_cases hc : pat ≠ [] ∧ isPfx pat (x :: xs) = true
        · rw [if_pos hc, if_pos hc]
          have hp : 0 < pat.length := List.length_pos.mpr hc.1
          simp only [List.length_cons] at h1 h2
          congr 1
          apply ih <;> simp only [List.length_drop, List.length_cons] <;> omega
        · rw [if_neg hc, if_neg hc]
          congr 1
          apply ih
          · simpa using h1
          · simpa using h2

theorem replaceAll_cons_nomatch {pat : List Char} (rep : List Char) {x : Char}
    {xs : List Char} (h : isPfx pat (x :: xs) = false) :
    replaceAll pat rep (x :: xs) = x :: replaceAll pat rep xs := by
  rw [replaceAll, replaceAll, List.length_cons, replaceAllF]
  rw [if_neg (by simp [h])]

theorem replaceAll_match {pat : List Char} (rep : List Char) {s : List Char}
    (hne : pat ≠ []) (h : isPfx pat s = true) :
    replaceAll pat rep s = rep ++ replaceAll pat rep (s.drop pat.length) := by
  cases s with
  | nil =>
    cases pat with
    | nil => exact absurd rfl hne
    | cons a q => simp [isPfx] at h
  | cons x xs =>
    rw [replaceAll, List.length_cons, replaceAllF, if_pos ⟨hne, h⟩]
    congr 1
    rw [replaceAll]
    apply replaceAllF_congr
    · simp only [List.length_drop, List.length_cons]
      have : 0 < pat.length := List.length_pos.mpr hne
      omega
    · exact le_refl _

/-- The scan passes an underscore-free left part through unchanged. -/
theorem replaceAll_pass {p : List Char} (rep : List Char) {u : List Char}
    (w : List Char) (hu : '_' ∉ u) :
    replaceAll ('_' :: p) rep (u ++ w) = u ++ replaceAll ('_' :: p) rep w := by
  induction u with
  | nil => simp
  | cons c cs ih =>
    simp only [List.mem_cons, not_or] at hu
    rw [List.cons_append, replaceAll_cons_nomatch rep]
    · rw [ih hu.2]
      simp
    · rw [isPfx]
      have : ('_' == c) = false := by
        simp only [beq_eq_false_iff_ne, ne_eq]
        exact hu.1
      simp [this]

/-- Removing the marker from `c ++ '_' :: tok` where `c` is
underscore-free yields `c`. -/
theorem replaceAll_stem_suffix {tok c : List Char} (hc : '_' ∉ c) :
    replaceAll ('_' :: tok) [] (c ++ '_' :: tok) = c := by
  rw [replaceAll_pass [] _ hc, replaceAll_match [] (List.cons_ne_nil _ _) (isPfx_self _)]
  rw [show ('_' :: tok).drop ('_' :: tok).length = [] from List.drop_length _]
  simp [replaceAll, replaceAllF]

/-- Removing the marker from a pair name `a ++ '_' :: b ++ '_' :: tok`
yields `a ++ '_' :: b`. -/
theorem replaceAll_pair_suffix {tok a b : List Char} (htok : '_' ∉ tok)
    (ha : '_' ∉ a) (hb : '_' ∉ b) (hbinf : ¬ tok <:+: b) :
    replaceAll ('_' :: tok) [] (a ++ '_' :: (b ++ '_' :: tok)) = a ++ '_' :: b := by
  rw [replaceAll_pass [] _ ha]
  congr 1
  rw [replaceAll_cons_nomatch []]
  · rw [replaceAll_pass [] _ hb, replaceAll_match [] (List.cons_ne_nil _ _) (isPfx_self _)]
    rw [show ('_' :: tok).drop ('_' :: tok).length = [] from List.drop_length _]
    simp [replaceAll, replaceAllF]
  · rw [isPfx]
    simp [isPfx_eq_false (not_prefix_token tok b _ htok hb hbinf)]

/-- No occurrence of `'_' :: tokP` inside a pair name built from a
different token. -/
theorem not_infix_pairname {tokP tokN a b : List Char} (htokP : '_' ∉ tokP)
    (htokN : '_' ∉ tokN) (ha : '_' ∉ a) (hb : '_' ∉ b)
    (h1 : ¬ tokP <:+: b) (h3 : ¬ tokP <:+: tokN) :
    ¬ ('_' :: tokP) <:+: (a ++ '_' :: (b ++ '_' :: tokN)) := by
  rw [infix_underscore_right _ _ _ ha, List.infix_cons_iff]
  rintro (h | h)
  · rw [List.cons_prefix_cons] at h
    exact not_prefix_token tokP b _ htokP hb h1 h.2
  · rw [infix_underscore_right _ _ _ hb, List.infix_cons_iff] at h
    rcases h with h | h
    · rw [List.cons_prefix_cons] at h
      exact h3 h.2.isInfix
    · exact htokN (h.subset (List.mem_cons_self _ _))

/-- No occurrence of `'_' :: tokP` inside a suffix name built from a
different token. -/
theorem not_infix_suffixname {tokP tokN c : List Char} (htokN : '_' ∉ tokN)
    (hc : '_' ∉ c) (h3 : ¬ tokP <:+: tokN) :
    ¬ ('_' :: tokP) <:+: (c ++ '_' :: tokN) := by
  rw [infix_underscore_right _ _ _ hc, List.infix_cons_iff]
  rintro (h | h)
  · rw [List.cons_prefix_cons] at h
    exact h3 h.2.isInfix
  · exact htokN (h.subset (List.mem_cons_self _ _))

/-- Splitting the two operand names out of the underscore join. -/
theorem underscore_append_inj {a b c d : List Char} (ha : '_' ∉ a) (hc : '_' ∉ c)
    (h : a ++ '_' :: b = c ++ '_' :: d) : a = c ∧ b = d := by
  induction a generalizing c with
  | nil =>
    cases c with
    | nil => simpa using h
    | cons e cs =>
      rw [List.nil_append, List.cons_append] at h
      injection h with h1 _
      simp only [List.mem_cons, not_or] at hc
      exact absurd h1 hc.1
  | cons x xsa ih =>
    simp only [List.mem_cons, not_or] at ha
    cases c with
    | nil =>
      rw [List.cons_append, List.nil_append] at h
      injection h with h1 _
      exact absurd h1.symm ha.1
    | cons y ys =>
      rw [List.cons_append, List.cons_append] at h
      injection h with h1 h2
      simp only [List.mem_cons, not_or] at hc
      obtain ⟨hac, hbd⟩ := ih ha.2 hc.2 h2
      exact ⟨by rw [h1, hac], hbd⟩

/-- Two stem-plus-suffix names with suffixes whose last characters
differ are distinct. -/
theorem append_suffix_ne {s1 s2 X Y : List Char} {x y : Char} {xr yr : List Char}
    (hX : X.reverse = x :: xr) (hY : Y.reverse = y :: yr) (hxy : x ≠ y) :
    s1 ++ X ≠ s2 ++ Y := by
  intro h
  have h2 := congrArg List.reverse h
  rw [List.reverse_append, List.reverse_append, hX, hY, List.cons_append,
    List.cons_append] at h2
  injection h2 with h3 _
  exact hxy h3

/-! ### Name-shape and table lemmas for the round-trip proof -/

/-- Splitting an underscore join of two underscore-free names. -/
theorem splitOnChar_pair {a b : List Char} (ha : '_' ∉ a) (hb : '_' ∉ b) :
    splitOnChar '_' (a ++ '_' :: b) = [a, b] := by
  rw [splitOnChar_append b ha, splitOnChar_of_not_mem hb]

/-- The split search on a two-part split whose parts are both base
columns succeeds at the first (and only) split point. -/
theorem firstValidSplit_pair {a b : Name} {base : List Name} (ha : a ∈ base)
    (hb : b ∈ base) : firstValidSplit [a, b] base = some (a, b) := by
  have hca : base.contains a = true := by simpa using ha
  have hcb : base.contains b = true := by simpa using hb
  rw [firstValidSplit]
  rw [show (List.range ([a, b] : List Name).length).drop 1 = [1] from rfl]
  simp only [List.findSome?, joinOn, List.take, List.drop, hca, hcb]
  simp

theorem ratioName_eq (a b : Name) :
    ratioName a b = a ++ '_' :: (b ++ '_' :: String.toList "ratio") := rfl

theorem interactionName_eq (a b : Name) :
    interactionName a b = a ++ '_' :: (b ++ '_' :: String.toList "interaction") := rfl

theorem squaredName_eq (c : Name) :
    squaredName c = c ++ '_' :: String.toList "squared" := rfl

theorem logName_eq (c : Name) : logName c = c ++ '_' :: String.toList "log" := rfl

/-- The reverse of a stem-plus-suffix name starts with the suffix's
last character. -/
theorem reverse_head_append {s X : List Char} {x : Char} {xr : List Char}
    (hX : X.reverse = x :: xr) : (s ++ X).reverse.head? = some x := by
  rw [List.reverse_append, hX]
  rfl

/-- Names whose reverses start with different characters differ. -/
theorem ne_of_reverse_head {m n : Name} {x y : Char}
    (hm : m.reverse.head? = some x) (hn : n.reverse.head? = some y) (hxy : x ≠ y) :
    m ≠ n := by
  intro h
  rw [h, hn] at hm
  injection hm with h2
  exact hxy h2.symm

/-- The underscore sits inside every derived name. -/
theorem underscore_mem_append_cons (u v : List Char) : '_' ∈ u ++ '_' :: v := by
  simp

/-- `EngDF.set` on a fresh name appends the column. -/
theorem EngDF_set_fresh {df : EngDF} {n : Name} {v : List (Option ℚ)}
    (h : df.hasCol n = false) : df.set n v = ⟨df.nrows, df.cols ++ [⟨n, v⟩]⟩ := by
  rw [EngDF.set, if_neg (by simp [h])]

/-- Column lookup ignores a right part when the name is on the left. -/
theorem get_append_left {nr : ℕ} {A B : List EngCol} {n : Name}
    (h : n ∈ A.map EngCol.name) :
    EngDF.get ⟨nr, A ++ B⟩ n = EngDF.get ⟨nr, A⟩ n := by
  rw [EngDF.get, EngDF.get]
  simp only [List.find?_append]
  obtain ⟨c, hc, hname⟩ := List.mem_map.mp h
  have : (A.find? (fun c => c.name == n)).isSome := by
    rw [List.find?_isSome]
    exact ⟨c, hc, by simp [hname]⟩
  obtain ⟨d, hd⟩ := Option.isSome_iff_exists.mp this
  rw [hd]
  rfl

/-- Column lookup passes over a left part without the name. -/
theorem get_append_right {nr : ℕ} {A B : List EngCol} {n : Name}
    (h : n ∉ A.map EngCol.name) :
    EngDF.get ⟨nr, A ++ B⟩ n = EngDF.get ⟨nr, B⟩ n := by
  rw [EngDF.get, EngDF.get]
  simp only [List.find?_append]
  have : A.find? (fun c => c.name == n) = none := by
    rw [List.find?_eq_none]
    intro c hc
    simp only [beq_iff_eq]
    intro he
    exact h (List.mem_map.mpr ⟨c, hc, he⟩)
  rw [this]
  rfl

/-- Membership form of `EngDF.hasCol`. -/
theorem hasCol_iff_mem {nr : ℕ} {cols : List EngCol} {n : Name} :
    EngDF.hasCol ⟨nr, cols⟩ n = true ↔ n ∈ cols.map EngCol.name := by
  rw [EngDF.hasCol]
  simp only [List.any_eq_true, List.mem_map, beq_iff_eq]

theorem hasCol_eq_false_of_not_mem {nr : ℕ} {cols : List EngCol} {n : Name}
    (h : n ∉ cols.map EngCol.name) : EngDF.hasCol ⟨nr, cols⟩ n = false := by
  by_contra hc
  exact h (hasCol_iff_mem.mp (eq_true_of_ne_false hc))

/-- The names of the base selection are the base columns. -/
theorem baseSelect_names (df : RawDF) (base : List Name) :
    (baseSelect df base).cols.map EngCol.name = base := by
  rw [baseSelect]
  simp only [List.map_map]
  exact List.map_id _

/-- Base-selection lookup of a base column. -/
theorem baseSelect_get {df : RawDF} {base : List Name} {b : Name}
    (hb : b ∈ base) :
    (baseSelect df base).get b = ((findCol df b).map RawCol.vals).getD [] := by
  rw [baseSelect, EngDF.get]
  induction base with
  | nil => cases hb
  | cons hd tl ih =>
    rcases List.mem_cons.mp hb with rfl | hb'
    · simp [List.find?]
    · simp only [List.map_cons, List.find?]
      by_cases hh : hd = b
      · subst hh
        simp
      · have : (hd == b) = false := by simp [hh]
        simp only [this]
        exact ih hb'

/-- A fold whose step is guarded by a data-only condition equals the
unguarded fold over the filtered list. -/
theorem foldl_if_filter {α β : Type} (cond : β → Bool) (f : α → β → α) :
    ∀ (l : List β) (a : α),
      l.foldl (fun acc x => if cond x then f acc x else acc) a =
        (l.filter cond).foldl f a := by
  intro l
  induction l with
  | nil => intro a; rfl
  | cons x xs ih =>
    intro a
    rw [List.foldl_cons, List.filter_cons]
    by_cases hc : cond x = true
    · simp only [hc, if_true, List.foldl_cons]
      exact ih _
    · simp only [hc, if_false, Bool.false_eq_true]
      exact ih a

theorem mem_ordPairs {α : Type} {l : List α} {p : α × α} (h : p ∈ ordPairs l) :
    p.1 ∈ l ∧ p.2 ∈ l := by
  induction l with
  | nil => cases h
  | cons x xs ih =>
    rw [ordPairs, List.mem_append] at h
    rcases h with h | h
    · obtain ⟨y, hy, rfl⟩ := List.mem_map.mp h
      exact ⟨List.mem_cons_self _ _, List.mem_cons_of_mem _ hy⟩
    · obtain ⟨h1, h2⟩ := ih h
      exact ⟨List.mem_cons_of_mem _ h1, List.mem_cons_of_mem _ h2⟩

theorem ordPairs_nodup {α : Type} {l : List α} (h : l.Nodup) : (ordPairs l).Nodup := by
  induction l with
  | nil => exact List.nodup_nil
  | cons x xs ih =>
    rw [ordPairs, List.nodup_append]
    obtain ⟨hx, hxs⟩ := List.nodup_cons.mp h
    refine ⟨List.Nodup.map ?_ hxs, ih hxs, ?_⟩
    · intro a b hab
      injection hab
    · intro q hq1 hq2
      obtain ⟨y, _, rfl⟩ := List.mem_map.mp hq1
      exact hx (mem_ordPairs hq2).1

/-- The engineered table built by the pair loop: every processed pair
appends its ratio and interaction columns, reading the operands from
the base selection. -/
theorem pairs_fold_plan (df : RawDF) (base : List Name) :
    ∀ (P : List (Name × Name)) (D : List EngCol),
      (∀ p ∈ P, p.1 ∈ base ∧ p.2 ∈ base) →
      (base ++ (D.map EngCol.name ++ P.flatMap
        (fun p => [ratioName p.1 p.2, interactionName p.1 p.2]))).Nodup →
      P.foldl (fun (eng : EngDF) (p : Name × Name) =>
          (eng.set (ratioName p.1 p.2) (ratioVals (eng.get p.1) (eng.get p.2))).set
            (interactionName p.1 p.2)
            (prodVals
              ((eng.set (ratioName p.1 p.2)
                (ratioVals (eng.get p.1) (eng.get p.2))).get p.1)
              ((eng.set (ratioName p.1 p.2)
                (ratioVals (eng.get p.1) (eng.get p.2))).get p.2)))
        ⟨df.nrows, (baseSelect df base).cols ++ D⟩ =
      (⟨df.nrows, (baseSelect df base).cols ++ (D ++ P.flatMap (fun p =>
        [⟨ratioName p.1 p.2,
          ratioVals ((baseSelect df base).get p.1) ((baseSelect df base).get p.2)⟩,
         ⟨interactionName p.1 p.2,
          prodVals ((baseSelect df base).get p.1) ((baseSelect df base).get p.2)⟩]))⟩ :
        EngDF) := by
  intro P
  induction P with
  | nil =>
    intro D _ _
    simp
  | cons p P' ih =>
    intro D hmem hnd
    have hp1 : p.1 ∈ base := (hmem p (List.mem_cons_self _ _)).1
    have hp2 : p.2 ∈ base := (hmem p (List.mem_cons_self _ _)).2
    have hflat : (p :: P').flatMap
        (fun p => [ratioName p.1 p.2, interactionName p.1 p.2]) =
        ratioName p.1 p.2 :: interactionName p.1 p.2 :: P'.flatMap
          (fun p => [ratioName p.1 p.2, interactionName p.1 p.2]) := by
      simp [List.flatMap_cons]
    rw [hflat] at hnd
    have hmemsplit : ∀ n : Name, n ∈ base ++ D.map EngCol.name →
        n ≠ ratioName p.1 p.2 ∧ n ≠ interactionName p.1 p.2 := by
      intro n hn
      have hndR := hnd
      rw [List.nodup_append] at hndR
      rcases List.mem_append.mp hn with hnb | hnd2
      · constructor
        · intro he
          exact hndR.2.2 hnb
            (by rw [he]; exact List.mem_append_right _ (List.mem_cons_self _ _))
        · intro he
          exact hndR.2.2 hnb (by
            rw [he]
            exact List.mem_append_right _ (List.mem_cons_of_mem _ (List.mem_cons_self _ _)))
      · have hnD := hndR.2.1
        rw [List.nodup_append] at hnD
        constructor
        · intro he
          exact hnD.2.2 hnd2 (by rw [he]; exact List.mem_cons_self _ _)
        · intro he
          exact hnD.2.2 hnd2 (by rw [he]; exact List.mem_cons_of_mem _ (List.mem_cons_self _ _))
    have hrne : ratioName p.1 p.2 ≠ interactionName p.1 p.2 := by
      have hndR := hnd
      rw [List.nodup_append] at hndR
      have h1 := hndR.2.1
      rw [List.nodup_append] at h1
      have h2 := (List.nodup_cons.mp h1.2.1).1
      intro he
      exact h2 (by rw [he]; exact List.mem_cons_self _ _)
    have hgetbase : ∀ b ∈ base, ∀ (X : List EngCol),
        EngDF.get ⟨df.nrows, (baseSelect df base).cols ++ X⟩ b =
          (baseSelect df base).get b := by
      intro b hbmem X
      have hbn : b ∈ (baseSelect df base).cols.map EngCol.name := by
        rw [baseSelect_names]; exact hbmem
      exact get_append_left hbn
    have hfreshr : EngDF.hasCol ⟨df.nrows, (baseSelect df base).cols ++ D⟩
        (ratioName p.1 p.2) = false := by
      apply hasCol_eq_false_of_not_mem
      rw [List.map_append, baseSelect_names]
      intro hmem2
      exact (hmemsplit _ hmem2).1 rfl
    simp only [List.foldl_cons]
    have hset1 : EngDF.set ⟨df.nrows, (baseSelect df base).cols ++ D⟩ (ratioName p.1 p.2)
        (ratioVals (EngDF.get ⟨df.nrows, (baseSelect df base).cols ++ D⟩ p.1)
          (EngDF.get ⟨df.nrows, (baseSelect df base).cols ++ D⟩ p.2)) =
        ⟨df.nrows, ((baseSelect df base).cols ++ D) ++
          [⟨ratioName p.1 p.2,
            ratioVals (EngDF.get ⟨df.nrows, (baseSelect df base).cols ++ D⟩ p.1)
              (EngDF.get ⟨df.nrows, (baseSelect df base).cols ++ D⟩ p.2)⟩]⟩ :=
      EngDF_set_fresh hfreshr
    rw [hset1, hgetbase p.1 hp1 D, hgetbase p.2 hp2 D, List.append_assoc]
    have hg1b : EngDF.get ⟨df.nrows, (baseSelect df base).cols ++ (D ++
        [⟨ratioName p.1 p.2,
          ratioVals ((baseSelect df base).get p.1) ((baseSelect df base).get p.2)⟩])⟩ p.1 =
        (baseSelect df base).get p.1 := hgetbase p.1 hp1 _
    have hg2b : EngDF.get ⟨df.nrows, (baseSelect df base).cols ++ (D ++
        [⟨ratioName p.1 p.2,
          ratioVals ((baseSelect df base).get p.1) ((baseSelect df base).get p.2)⟩])⟩ p.2 =
        (baseSelect df base).get p.2 := hgetbase p.2 hp2 _
    rw [hg1b, hg2b]
    have hfreshi : EngDF.hasCol ⟨df.nrows, (baseSelect df base).cols ++ (D ++
        [⟨ratioName p.1 p.2,
          ratioVals ((baseSelect df base).get p.1) ((baseSelect df base).get p.2)⟩])⟩
        (interactionName p.1 p.2) = false := by
      apply hasCol_eq_false_of_not_mem
      simp only [List.map_append, baseSelect_names, List.map_cons, List.map_nil]
      intro hmem2
      rcases List.mem_append.mp hmem2 with h | h
      · exact (hmemsplit _ (List.mem_append_left _ h)).2 rfl
      · rcases List.mem_append.mp h with h | h
        · exact (hmemsplit _ (List.mem_append_right _ h)).2 rfl
        · have h2 := List.mem_singleton.mp h
          exact hrne h2.symm
    have hset2 : EngDF.set ⟨df.nrows, (baseSelect df base).cols ++ (D ++
          [⟨ratioName p.1 p.2,
            ratioVals ((baseSelect df base).get p.1) ((baseSelect df base).get p.2)⟩])⟩
        (interactionName p.1 p.2)
        (prodVals ((baseSelect df base).get p.1) ((baseSelect df base).get p.2)) =
        ⟨df.nrows, ((baseSelect df base).cols ++ (D ++
          [⟨ratioName p.1 p.2,
            ratioVals ((baseSelect df base).get p.1) ((baseSelect df base).get p.2)⟩])) ++
          [⟨interactionName p.1 p.2,
            prodVals ((baseSelect df base).get p.1) ((baseSelect df base).get p.2)⟩]⟩ :=
      EngDF_set_fresh hfreshi
    rw [hset2]
    have hassoc : (((baseSelect df base).cols ++ (D ++
        [⟨ratioName p.1 p.2,
          ratioVals ((baseSelect df base).get p.1) ((baseSelect df base).get p.2)⟩])) ++
        [⟨interactionName p.1 p.2,
          prodVals ((baseSelect df base).get p.1) ((baseSelect df base).get p.2)⟩]) =
        (baseSelect df base).cols ++ ((D ++
          [⟨ratioName p.1 p.2,
            ratioVals ((baseSelect df base).get p.1) ((baseSelect df base).get p.2)⟩,
           ⟨interactionName p.1 p.2,
            prodVals ((baseSelect df base).get p.1) ((baseSelect df base).get p.2)⟩])) := by
      simp
    rw [hassoc]
    have hnd2 : (base ++ ((((D ++
        [⟨ratioName p.1 p.2,
          ratioVals ((baseSelect df base).get p.1) ((baseSelect df base).get p.2)⟩,
         ⟨interactionName p.1 p.2,
          prodVals ((baseSelect df base).get p.1)
            ((baseSelect df base).get p.2)⟩] : List EngCol)).map EngCol.name) ++ P'.flatMap
        (fun p => [ratioName p.1 p.2, interactionName p.1 p.2]))).Nodup := by
      have he : base ++ ((((D ++
          [⟨ratioName p.1 p.2,
            ratioVals ((baseSelect df base).get p.1) ((baseSelect df base).get p.2)⟩,
           ⟨interactionName p.1 p.2,
            prodVals ((baseSelect df base).get p.1)
              ((baseSelect df base).get p.2)⟩] : List EngCol)).map EngCol.name) ++ P'.flatMap
          (fun p => [ratioName p.1 p.2, interactionName p.1 p.2])) =
          base ++ (D.map EngCol.name ++ (ratioName p.1 p.2 ::
            interactionName p.1 p.2 :: P'.flatMap
              (fun p => [ratioName p.1 p.2, interactionName p.1 p.2]))) := by
        simp
      rw [he]
      exact hnd
    have hih := ih ((D ++
        [⟨ratioName p.1 p.2,
          ratioVals ((baseSelect df base).get p.1) ((baseSelect df base).get p.2)⟩,
         ⟨interactionName p.1 p.2,
          prodVals ((baseSelect df base).get p.1)
            ((baseSelect df base).get p.2)⟩] : List EngCol))
      (fun q hq => hmem q (List.mem_cons_of_mem _ hq)) hnd2
    rw [hih]
    simp [List.flatMap_cons]

theorem mem_basePairs {df : RawDF} {base : List Name} {p : Name × Name}
    (h : p ∈ basePairs df base) : p.1 ∈ base ∧ p.2 ∈ base := by
  rw [basePairs, List.mem_filter] at h
  have h2 := h.2
  simp only [Bool.and_eq_true] at h2
  constructor
  · simpa using h2.1
  · simpa using h2.2

theorem pairCols_names (df : RawDF) (base : List Name) :
    (pairCols df base).map EngCol.name = (basePairs df base).flatMap
      (fun p => [ratioName p.1 p.2, interactionName p.1 p.2]) := by
  rw [pairCols, List.map_flatMap]
  rfl

theorem aggCols_names (df : RawDF) (base : List Name) :
    (aggCols df base).map EngCol.name =
      (if 1 < (base.filter isDelayCol).length then
        [String.toList "combined_delays"] else []) ++
      (if 1 < (base.filter isCountCol).length then
        [String.toList "combined_counts"] else []) := by
  rw [aggCols, List.map_append]
  by_cases hd : 1 < (base.filter isDelayCol).length <;>
    by_cases hc : 1 < (base.filter isCountCol).length <;>
    simp [hd, hc]

theorem sqLogCols_names (lg : ℚ → ℚ) (df : RawDF) (base : List Name) :
    (sqLogCols lg df base).map EngCol.name = base.flatMap (fun col =>
      if (numericNames df).contains col then
        squaredName col :: (if anyPositive ((baseSelect df base).get col) then
          [logName col] else [])
      else []) := by
  rw [sqLogCols, List.map_flatMap]
  apply List.flatMap_congr
  intro col _
  by_cases hn : (numericNames df).contains col = true
  · have hn2 : col ∈ numericNames df := by simpa using hn
    by_cases hp : anyPositive ((baseSelect df base).get col) = true <;>
      simp [hn, hn2, hp]
  · have hn2 : col ∉ numericNames df := by simpa using hn
    simp [hn, hn2]

/-- The combined_delays / combined_counts assignment step. -/
theorem agg_step_plan (df : RawDF) (base : List Name) (D : List EngCol)
    (nm : Name) (L : List Name) (hL : ∀ c ∈ L, c ∈ base)
    (hfresh : 1 < L.length → nm ∉ base ++ D.map EngCol.name) :
    (if 1 < L.length then
      EngDF.set ⟨df.nrows, (baseSelect df base).cols ++ D⟩ nm
        (rowSumVals df.nrows (L.map (fun c =>
          EngDF.get ⟨df.nrows, (baseSelect df base).cols ++ D⟩ c)))
    else ⟨df.nrows, (baseSelect df base).cols ++ D⟩) =
    (⟨df.nrows, (baseSelect df base).cols ++ (D ++
      (if 1 < L.length then
        [⟨nm, rowSumVals df.nrows (L.map (fun c => (baseSelect df base).get c))⟩]
      else []))⟩ : EngDF) := by
  by_cases h : 1 < L.length
  · rw [if_pos h, if_pos h]
    have hmapL : L.map (fun c =>
        EngDF.get ⟨df.nrows, (baseSelect df base).cols ++ D⟩ c) =
        L.map (fun c => (baseSelect df base).get c) := by
      apply List.map_congr_left
      intro c hc
      have hbn : c ∈ (baseSelect df base).cols.map EngCol.name := by
        rw [baseSelect_names]; exact hL c hc
      exact get_append_left hbn
    have hfr : EngDF.hasCol ⟨df.nrows, (baseSelect df base).cols ++ D⟩ nm = false := by
      apply hasCol_eq_false_of_not_mem
      rw [List.map_append, baseSelect_names]
      exact hfresh h
    have hset : EngDF.set ⟨df.nrows, (baseSelect df base).cols ++ D⟩ nm
        (rowSumVals df.nrows (L.map (fun c =>
          EngDF.get ⟨df.nrows, (baseSelect df base).cols ++ D⟩ c))) =
        ⟨df.nrows, ((baseSelect df base).cols ++ D) ++
          [⟨nm, rowSumVals df.nrows (L.map (fun c =>
            EngDF.get ⟨df.nrows, (baseSelect df base).cols ++ D⟩ c))⟩]⟩ :=
      EngDF_set_fresh hfr
    rw [hset, hmapL]
    simp
  · rw [if_neg h, if_neg h]
    simp

/-- The engineered table built by the squared/log loop: every numeric
base column appends its squared column and, when it holds a positive
value, its log column, all reads coming from the base selection. -/
theorem sqlog_fold_plan (lg : ℚ → ℚ) (df : RawDF) (base : List Name) :
    ∀ (C : List Name) (D : List EngCol),
      (∀ c ∈ C, c ∈ base) →
      (base ++ (D.map EngCol.name ++ C.flatMap (fun col =>
        if (numericNames df).contains col then
          squaredName col :: (if anyPositive ((baseSelect df base).get col) then
            [logName col] else [])
        else []))).Nodup →
      C.foldl (fun (eng : EngDF) (col : Name) =>
          if (numericNames df).contains col then
            (if anyPositive ((eng.set (squaredName col)
                (squareVals (eng.get col))).get col) then
              (eng.set (squaredName col) (squareVals (eng.get col))).set (logName col)
                (logVals lg ((eng.set (squaredName col)
                  (squareVals (eng.get col))).get col))
            else eng.set (squaredName col) (squareVals (eng.get col)))
          else eng)
        ⟨df.nrows, (baseSelect df base).cols ++ D⟩ =
      (⟨df.nrows, (baseSelect df base).cols ++ (D ++ C.flatMap (fun col =>
        if (numericNames df).contains col then
          (⟨squaredName col, squareVals ((baseSelect df base).get col)⟩ : EngCol) ::
            (if anyPositive ((baseSelect df base).get col) then
              [(⟨logName col, logVals lg ((baseSelect df base).get col)⟩ : EngCol)]
            else [])
        else []))⟩ : EngDF) := by
  intro C
  induction C with
  | nil =>
    intro D _ _
    simp
  | cons col C' ih =>
    intro D hmemC hnd
    have hcol : col ∈ base := hmemC col (List.mem_cons_self _ _)
    have hgetbase : ∀ b ∈ base, ∀ (X : List EngCol),
        EngDF.get ⟨df.nrows, (baseSelect df base).cols ++ X⟩ b =
          (baseSelect df base).get b := by
      intro b hbmem X
      have hbn : b ∈ (baseSelect df base).cols.map EngCol.name := by
        rw [baseSelect_names]; exact hbmem
      exact get_append_left hbn
    simp only [List.foldl_cons]
    by_cases hn : (numericNames df).contains col = true
    · rw [if_pos hn]
      have hn2 : col ∈ numericNames df := by simpa using hn
      by_cases hcp : anyPositive ((baseSelect df base).get col) = true
      · have hndc : (base ++ (D.map EngCol.name ++ (squaredName col :: logName col ::
            C'.flatMap (fun col =>
              if (numericNames df).contains col then
                squaredName col :: (if anyPositive ((baseSelect df base).get col) then
                  [logName col] else [])
              else [])))).Nodup := by
          have he : base ++ (D.map EngCol.name ++ (col :: C').flatMap (fun col =>
              if (numericNames df).contains col then
                squaredName col :: (if anyPositive ((baseSelect df base).get col) then
                  [logName col] else [])
              else [])) =
              base ++ (D.map EngCol.name ++ (squaredName col :: logName col ::
                C'.flatMap (fun col =>
                  if (numericNames df).contains col then
                    squaredName col :: (if anyPositive ((baseSelect df base).get col) then
                      [logName col] else [])
                  else []))) := by
            simp [List.flatMap_cons, hn, hn2, hcp]
          rw [he] at hnd
          exact hnd
        have hmemsplit : ∀ n : Name, n ∈ base ++ D.map EngCol.name →
            n ≠ squaredName col ∧ n ≠ logName col := by
          intro n hmm
          have hndR := hndc
          rw [List.nodup_append] at hndR
          rcases List.mem_append.mp hmm with hnb | hnd2
          · constructor
            · intro he2
              exact hndR.2.2 hnb
                (by rw [he2]; exact List.mem_append_right _ (List.mem_cons_self _ _))
            · intro he2
              exact hndR.2.2 hnb (by
                rw [he2]
                exact List.mem_append_right _
                  (List.mem_cons_of_mem _ (List.mem_cons_self _ _)))
          · have hnD := hndR.2.1
            rw [List.nodup_append] at hnD
            constructor
            · intro he2
              exact hnD.2.2 hnd2 (by rw [he2]; exact List.mem_cons_self _ _)
            · intro he2
              exact hnD.2.2 hnd2
                (by rw [he2]; exact List.mem_cons_of_mem _ (List.mem_cons_self _ _))
        have hrne : squaredName col ≠ logName col := by
          have hndR := hndc
          rw [List.nodup_append] at hndR
          have h1 := hndR.2.1
          rw [List.nodup_append] at h1
          have h2 := (List.nodup_cons.mp h1.2.1).1
          intro he2
          exact h2 (by rw [he2]; exact List.mem_cons_self _ _)
        have hfrsq : EngDF.hasCol ⟨df.nrows, (baseSelect df base).cols ++ D⟩
            (squaredName col) = false := by
          apply hasCol_eq_false_of_not_mem
          rw [List.map_append, baseSelect_names]
          intro hmm
          exact (hmemsplit _ hmm).1 rfl
        have hset1 : EngDF.set ⟨df.nrows, (baseSelect df base).cols ++ D⟩
            (squaredName col)
            (squareVals (EngDF.get ⟨df.nrows, (baseSelect df base).cols ++ D⟩ col)) =
            ⟨df.nrows, ((baseSelect df base).cols ++ D) ++
              [⟨squaredName col,
                squareVals (EngDF.get ⟨df.nrows,
                  (baseSelect df base).cols ++ D⟩ col)⟩]⟩ :=
          EngDF_set_fresh hfrsq
        rw [hset1, hgetbase col hcol D, List.append_assoc]
        have hg2 : EngDF.get ⟨df.nrows, (baseSelect df base).cols ++ (D ++
            [⟨squaredName col, squareVals ((baseSelect df base).get col)⟩])⟩ col =
            (baseSelect df base).get col := hgetbase col hcol _
        rw [hg2, if_pos hcp]
        have hfrlog : EngDF.hasCol ⟨df.nrows, (baseSelect df base).cols ++ (D ++
            [⟨squaredName col, squareVals ((baseSelect df base).get col)⟩])⟩
            (logName col) = false := by
          apply hasCol_eq_false_of_not_mem
          simp only [List.map_append, baseSelect_names, List.map_cons, List.map_nil]
          intro hmm
          rcases List.mem_append.mp hmm with h | h
          · exact (hmemsplit _ (List.mem_append_left _ h)).2 rfl
          · rcases List.mem_append.mp h with h | h
            · exact (hmemsplit _ (List.mem_append_right _ h)).2 rfl
            · have h2 := List.mem_singleton.mp h
              exact hrne h2.symm
        have hset2 : EngDF.set ⟨df.nrows, (baseSelect df base).cols ++ (D ++
              [⟨squaredName col, squareVals ((baseSelect df base).get col)⟩])⟩
            (logName col) (logVals lg ((baseSelect df base).get col)) =
            ⟨df.nrows, ((baseSelect df base).cols ++ (D ++
              [⟨squaredName col, squareVals ((baseSelect df base).get col)⟩])) ++
              [⟨logName col, logVals lg ((baseSelect df base).get col)⟩]⟩ :=
          EngDF_set_fresh hfrlog
        rw [hset2]
        have hassoc : (((baseSelect df base).cols ++ (D ++
            [⟨squaredName col, squareVals ((baseSelect df base).get col)⟩])) ++
            [⟨logName col, logVals lg ((baseSelect df base).get col)⟩]) =
            (baseSelect df base).cols ++ ((D ++
              [⟨squaredName col, squareVals ((baseSelect df base).get col)⟩,
               ⟨logName col, logVals lg ((baseSelect df base).get col)⟩])) := by
          simp
        rw [hassoc]
        have hnd2 : (base ++ ((((D ++
            [⟨squaredName col, squareVals ((baseSelect df base).get col)⟩,
             ⟨logName col,
               logVals lg ((baseSelect df base).get col)⟩] : List EngCol)).map
                EngCol.name) ++ C'.flatMap (fun col =>
              if (numericNames df).contains col then
                squaredName col :: (if anyPositive ((baseSelect df base).get col) then
                  [logName col] else [])
              else []))).Nodup := by
          have he : base ++ ((((D ++
              [⟨squaredName col, squareVals ((baseSelect df base).get col)⟩,
               ⟨logName col,
                 logVals lg ((baseSelect df base).get col)⟩] : List EngCol)).map
                  EngCol.name) ++ C'.flatMap (fun col =>
                if (numericNames df).contains col then
                  squaredName col :: (if anyPositive ((baseSelect df base).get col) then
                    [logName col] else [])
                else [])) =
              base ++ (D.map EngCol.name ++ (squaredName col :: logName col ::
                C'.flatMap (fun col =>
                  if (numericNames df).contains col then
                    squaredName col :: (if anyPositive ((baseSelect df base).get col) then
                      [logName col] else [])
                  else []))) := by
            simp
          rw [he]
          exact hndc
        have hih := ih ((D ++
            [⟨squaredName col, squareVals ((baseSelect df base).get col)⟩,
             ⟨logName col, logVals lg ((baseSelect df base).get col)⟩] : List EngCol))
          (fun c hc => hmemC c (List.mem_cons_of_mem _ hc)) hnd2
        rw [hih]
        simp [List.flatMap_cons, hn, hn2, hcp]
      · have hndc : (base ++ (D.map EngCol.name ++ (squaredName col ::
            C'.flatMap (fun col =>
              if (numericNames df).contains col then
                squaredName col :: (if anyPositive ((baseSelect df base).get col) then
                  [logName col] else [])
              else [])))).Nodup := by
          have he : base ++ (D.map EngCol.name ++ (col :: C').flatMap (fun col =>
              if (numericNames df).contains col then
                squaredName col :: (if anyPositive ((baseSelect df base).get col) then
                  [logName col] else [])
              else [])) =
              base ++ (D.map EngCol.name ++ (squaredName col ::
                C'.flatMap (fun col =>
                  if (numericNames df).contains col then
                    squaredName col :: (if anyPositive ((baseSelect df base).get col) then
                      [logName col] else [])
                  else []))) := by
            simp [List.flatMap_cons, hn, hn2, hcp]
          rw [he] at hnd
          exact hnd
        have hmemsplit : ∀ n : Name, n ∈ base ++ D.map EngCol.name →
            n ≠ squaredName col := by
          intro n hmm
          have hndR := hndc
          rw [List.nodup_append] at hndR
          rcases List.mem_append.mp hmm with hnb | hnd2
          · intro he2
            exact hndR.2.2 hnb
              (by rw [he2]; exact List.mem_append_right _ (List.mem_cons_self _ _))
          · have hnD := hndR.2.1
            rw [List.nodup_append] at hnD
            intro he2
            exact hnD.2.2 hnd2 (by rw [he2]; exact List.mem_cons_self _ _)
        have hfrsq : EngDF.hasCol ⟨df.nrows, (baseSelect df base).cols ++ D⟩
            (squaredName col) = false := by
          apply hasCol_eq_false_of_not_mem
          rw [List.map_append, baseSelect_names]
          intro hmm
          exact hmemsplit _ hmm rfl
        have hset1 : EngDF.set ⟨df.nrows, (baseSelect df base).cols ++ D⟩
            (squaredName col)
            (squareVals (EngDF.get ⟨df.nrows, (baseSelect df base).cols ++ D⟩ col)) =
            ⟨df.nrows, ((baseSelect df base).cols ++ D) ++
              [⟨squaredName col,
                squareVals (EngDF.get ⟨df.nrows,
                  (baseSelect df base).cols ++ D⟩ col)⟩]⟩ :=
          EngDF_set_fresh hfrsq
        rw [hset1, hgetbase col hcol D, List.append_assoc]
        have hg2 : EngDF.get ⟨df.nrows, (baseSelect df base).cols ++ (D ++
            [⟨squaredName col, squareVals ((baseSelect df base).get col)⟩])⟩ col =
            (baseSelect df base).get col := hgetbase col hcol _
        rw [hg2, if_neg hcp]
        have hnd2 : (base ++ ((((D ++
            [⟨squaredName col,
              squareVals ((baseSelect df base).get col)⟩] : List EngCol)).map
                EngCol.name) ++ C'.flatMap (fun col =>
              if (numericNames df).contains col then
                squaredName col :: (if anyPositive ((baseSelect df base).get col) then
                  [logName col] else [])
              else []))).Nodup := by
          have he : base ++ ((((D ++
              [⟨squaredName col,
                squareVals ((baseSelect df base).get col)⟩] : List EngCol)).map
                  EngCol.name) ++ C'.flatMap (fun col =>
                if (numericNames df).contains col then
                  squaredName col :: (if anyPositive ((baseSelect df base).get col) then
                    [logName col] else [])
                else [])) =
              base ++ (D.map EngCol.name ++ (squaredName col ::
                C'.flatMap (fun col =>
                  if (numericNames df).contains col then
                    squaredName col :: (if anyPositive ((baseSelect df base).get col) then
                      [logName col] else [])
                  else []))) := by
            simp
          rw [he]
          exact hndc
        have hih := ih ((D ++
            [⟨squaredName col,
              squareVals ((baseSelect df base).get col)⟩] : List EngCol))
          (fun c hc => hmemC c (List.mem_cons_of_mem _ hc)) hnd2
        rw [hih]
        simp [List.flatMap_cons, hn, hn2, hcp]
    · rw [if_neg hn]
      have hn2 : col ∉ numericNames df := by simpa using hn
      have he : base ++ (D.map EngCol.name ++ (col :: C').flatMap (fun col =>
          if (numericNames df).contains col then
            squaredName col :: (if anyPositive ((baseSelect df base).get col) then
              [logName col] else [])
          else [])) =
          base ++ (D.map EngCol.name ++ C'.flatMap (fun col =>
            if (numericNames df).contains col then
              squaredName col :: (if anyPositive ((baseSelect df base).get col) then
                [logName col] else [])
            else [])) := by
        simp [List.flatMap_cons, hn, hn2]
      rw [he] at hnd
      rw [ih D (fun c hc => hmemC c (List.mem_cons_of_mem _ hc)) hnd]
      simp [List.flatMap_cons, hn, hn2]

/-- `create_dynamic_features` on distinct planned names yields exactly the
planned column list (base, pair, aggregate, squared/log columns in
generation order), median-filled. -/
theorem create_eq_plan (lg : ℚ → ℚ) (df : RawDF) (base : List Name)
    (hall : base.all (fun b => (findCol df b).isSome) = true)
    (hnd : ((plannedCols lg df base).map EngCol.name).Nodup) :
    create_dynamic_features lg df base =
      .ok (fillMedians ⟨df.nrows, plannedCols lg df base⟩) := by
  simp only [create_dynamic_features]
  rw [if_pos hall]
  have hnum : (df.cols.filter (fun c => c.numeric)).map (fun c => c.name) =
      numericNames df := rfl
  rw [hnum]
  have hff := foldl_if_filter
    (fun p : Name × Name => base.contains p.1 && base.contains p.2)
    (fun (eng : EngDF) (p : Name × Name) =>
      (eng.set (ratioName p.1 p.2) (ratioVals (eng.get p.1) (eng.get p.2))).set
        (interactionName p.1 p.2)
        (prodVals
          ((eng.set (ratioName p.1 p.2)
            (ratioVals (eng.get p.1) (eng.get p.2))).get p.1)
          ((eng.set (ratioName p.1 p.2)
            (ratioVals (eng.get p.1) (eng.get p.2))).get p.2)))
    (ordPairs (numericNames df)) (baseSelect df base)
  rw [hff]
  have hbp : (ordPairs (numericNames df)).filter
      (fun p => base.contains p.1 && base.contains p.2) = basePairs df base := rfl
  rw [hbp]
  have hinit : baseSelect df base =
      (⟨df.nrows, (baseSelect df base).cols ++ ([] : List EngCol)⟩ : EngDF) := by
    rw [List.append_nil]
    rfl
  rw [hinit]
  have hnames : (plannedCols lg df base).map EngCol.name =
      base ++ ((basePairs df base).flatMap
          (fun p => [ratioName p.1 p.2, interactionName p.1 p.2]) ++
        (((if 1 < (base.filter isDelayCol).length then
            [String.toList "combined_delays"] else []) ++
          (if 1 < (base.filter isCountCol).length then
            [String.toList "combined_counts"] else [])) ++
          base.flatMap (fun col =>
            if (numericNames df).contains col then
              squaredName col :: (if anyPositive ((baseSelect df base).get col) then
                [logName col] else [])
            else []))) := by
    rw [plannedCols]
    simp only [List.map_append, baseSelect_names, pairCols_names, aggCols_names,
      sqLogCols_names, List.append_assoc]
  rw [hnames] at hnd
  have hd1 := List.nodup_append.mp hnd
  have hdR := List.nodup_append.mp hd1.2.1
  have hndP : (base ++ (List.map EngCol.name ([] : List EngCol) ++
      (basePairs df base).flatMap
        (fun p => [ratioName p.1 p.2, interactionName p.1 p.2]))).Nodup := by
    have hndP0 : (base ++ (basePairs df base).flatMap
        (fun p => [ratioName p.1 p.2, interactionName p.1 p.2])).Nodup :=
      List.Nodup.sublist
        (List.Sublist.append_left (List.sublist_append_left _ _) base) hnd
    simpa using hndP0
  rw [pairs_fold_plan df base (basePairs df base) ([] : List EngCol)
    (fun p hp => mem_basePairs hp) hndP]
  have hpc : ([] : List EngCol) ++ (basePairs df base).flatMap (fun p =>
      [⟨ratioName p.1 p.2,
        ratioVals ((baseSelect df base).get p.1) ((baseSelect df base).get p.2)⟩,
       ⟨interactionName p.1 p.2,
        prodVals ((baseSelect df base).get p.1) ((baseSelect df base).get p.2)⟩]) =
      pairCols df base := by
    rw [List.nil_append]
    rfl
  rw [hpc]
  have hfd : 1 < (base.filter isDelayCol).length →
      String.toList "combined_delays" ∉ base ++ (pairCols df base).map EngCol.name := by
    intro hlen hmm
    have hcd : String.toList "combined_delays" ∈
        ((if 1 < (base.filter isDelayCol).length then
          [String.toList "combined_delays"] else []) ++
        (if 1 < (base.filter isCountCol).length then
          [String.toList "combined_counts"] else [])) ++
        base.flatMap (fun col =>
          if (numericNames df).contains col then
            squaredName col :: (if anyPositive ((baseSelect df base).get col) then
              [logName col] else [])
          else []) := by
      apply List.mem_append_left
      apply List.mem_append_left
      rw [if_pos hlen]
      exact List.mem_singleton.mpr rfl
    rcases List.mem_append.mp hmm with h | h
    · exact hd1.2.2 h (List.mem_append_right _ hcd)
    · rw [pairCols_names] at h
      exact hdR.2.2 h hcd
  rw [agg_step_plan df base (pairCols df base) (String.toList "combined_delays")
    (base.filter isDelayCol) (fun c hc => List.mem_of_mem_filter hc) hfd]
  have hfc : 1 < (base.filter isCountCol).length →
      String.toList "combined_counts" ∉ base ++ ((pairCols df base ++
        (if 1 < (base.filter isDelayCol).length then
          [⟨String.toList "combined_delays", rowSumVals df.nrows
            ((base.filter isDelayCol).map (fun c => (baseSelect df base).get c))⟩]
        else [])) : List EngCol).map EngCol.name := by
    intro hlen hmm
    have hcc : String.toList "combined_counts" ∈
        ((if 1 < (base.filter isDelayCol).length then
          [String.toList "combined_delays"] else []) ++
        (if 1 < (base.filter isCountCol).length then
          [String.toList "combined_counts"] else [])) ++
        base.flatMap (fun col =>
          if (numericNames df).contains col then
            squaredName col :: (if anyPositive ((baseSelect df base).get col) then
              [logName col] else [])
          else []) := by
      apply List.mem_append_left
      apply List.mem_append_right
      rw [if_pos hlen]
      exact List.mem_singleton.mpr rfl
    rcases List.mem_append.mp hmm with h | h
    · exact hd1.2.2 h (List.mem_append_right _ hcc)
    · rw [List.map_append, pairCols_names] at h
      rcases List.mem_append.mp h with h | h
      · exact hdR.2.2 h hcc
      · by_cases hdlen : 1 < (base.filter isDelayCol).length
        · rw [if_pos hdlen] at h
          simp only [List.map_cons, List.map_nil] at h
          have h2 : String.toList "combined_counts" = String.toList "combined_delays" :=
            List.mem_singleton.mp h
          exact absurd h2 (by decide)
        · rw [if_neg hdlen] at h
          simp at h
  have ha2 := agg_step_plan df base ((pairCols df base ++
      (if 1 < (base.filter isDelayCol).length then
        [⟨String.toList "combined_delays", rowSumVals df.nrows
          ((base.filter isDelayCol).map (fun c => (baseSelect df base).get c))⟩]
      else [])) : List EngCol) (String.toList "combined_counts")
    (base.filter isCountCol) (fun c hc => List.mem_of_mem_filter hc) hfc
  rw [ha2]
  have haggeq : (((pairCols df base ++
      (if 1 < (base.filter isDelayCol).length then
        [⟨String.toList "combined_delays", rowSumVals df.nrows
          ((base.filter isDelayCol).map (fun c => (baseSelect df base).get c))⟩]
      else [])) : List EngCol) ++
      (if 1 < (base.filter isCountCol).length then
        [⟨String.toList "combined_counts", rowSumVals df.nrows
          ((base.filter isCountCol).map (fun c => (baseSelect df base).get c))⟩]
      else [])) = pairCols df base ++ aggCols df base := by
    rw [List.append_assoc]
    rfl
  rw [haggeq]
  have hndsq : (base ++ ((pairCols df base ++ aggCols df base).map EngCol.name ++
      base.flatMap (fun col =>
        if (numericNames df).contains col then
          squaredName col :: (if anyPositive ((baseSelect df base).get col) then
            [logName col] else [])
        else []))).Nodup := by
    have he : base ++ ((pairCols df base ++ aggCols df base).map EngCol.name ++
        base.flatMap (fun col =>
          if (numericNames df).contains col then
            squaredName col :: (if anyPositive ((baseSelect df base).get col) then
              [logName col] else [])
          else [])) =
        base ++ ((basePairs df base).flatMap
            (fun p => [ratioName p.1 p.2, interactionName p.1 p.2]) ++
          (((if 1 < (base.filter isDelayCol).length then
              [String.toList "combined_delays"] else []) ++
            (if 1 < (base.filter isCountCol).length then
              [String.toList "combined_counts"] else [])) ++
            base.flatMap (fun col =>
              if (numericNames df).contains col then
                squaredName col :: (if anyPositive ((baseSelect df base).get col) then
                  [logName col] else [])
              else []))) := by
      simp [pairCols_names, aggCols_names, List.append_assoc]
    rw [he]
    exact hnd
  rw [sqlog_fold_plan lg df base base (pairCols df base ++ aggCols df base)
    (fun c hc => hc) hndsq]
  simp [plannedCols, sqLogCols, List.append_assoc]

theorem prefix_head_ne {x y : Char} {xs ys : List Char} (h : x ≠ y) :
    ¬ (x :: xs) <+: (y :: ys) := by
  intro hp
  rw [List.cons_prefix_cons] at hp
  exact h hp.1

theorem endsWith_append (pat s : List Char) : endsWith pat (s ++ pat) = true := by
  rw [endsWith, List.reverse_append]
  exact (isPfx_iff _ _).mpr (List.prefix_append _ _)

theorem endsWith_ne_last {pat s : List Char} {x y : Char} {xr yr : List Char}
    (hp : pat.reverse = x :: xr) (hs : s.reverse = y :: yr) (hxy : x ≠ y) :
    endsWith pat s = false := by
  rw [endsWith, hp, hs]
  exact isPfx_eq_false (prefix_head_ne hxy)

/-- The reconstruction loop on a `_ratio` feature of two clean base
columns recomputes the ratio. -/
theorem recreateStep_ratio (lg : ℚ → ℚ) (base : List Name) (nrows : ℕ) (eng : EngDF)
    {a b : Name} (hamem : a ∈ base) (hbmem : b ∈ base)
    (hca : CleanName a) (hcb : CleanName b) :
    recreateStep lg base nrows eng (ratioName a b) =
      eng.set (ratioName a b) (ratioVals (eng.get a) (eng.get b)) := by
  obtain ⟨-, hau, har, -, -, -⟩ := hca
  obtain ⟨-, hbu, hbr, -, -, -⟩ := hcb
  have hpat : String.toList "_ratio" = '_' :: String.toList "ratio" := rfl
  have hc1 : containsSub (String.toList "_ratio") (ratioName a b) = true := by
    rw [hpat, ratioName_eq]
    exact (containsSub_iff _ _).mpr ⟨a ++ '_' :: b, [], by simp⟩
  rw [recreateStep, if_pos hc1]
  have hrw : replaceAll (String.toList "_ratio") [] (ratioName a b) = a ++ '_' :: b := by
    rw [hpat, ratioName_eq]
    exact replaceAll_pair_suffix (by decide) hau hbu hbr
  rw [hrw, splitOnChar_pair hau hbu]
  rw [if_pos (by simp : 2 ≤ ([a, b] : List Name).length)]
  rw [firstValidSplit_pair hamem hbmem]

/-- The reconstruction loop on an `_interaction` feature of two clean
base columns recomputes the product. -/
theorem recreateStep_interaction (lg : ℚ → ℚ) (base : List Name) (nrows : ℕ)
    (eng : EngDF) {a b : Name} (hamem : a ∈ base) (hbmem : b ∈ base)
    (hca : CleanName a) (hcb : CleanName b) :
    recreateStep lg base nrows eng (interactionName a b) =
      eng.set (interactionName a b) (prodVals (eng.get a) (eng.get b)) := by
  obtain ⟨-, hau, har, hai, -, -⟩ := hca
  obtain ⟨-, hbu, hbr, hbi, -, -⟩ := hcb
  have hpatR : String.toList "_ratio" = '_' :: String.toList "ratio" := rfl
  have hpatI : String.toList "_interaction" = '_' :: String.toList "interaction" := rfl
  have hc1 : containsSub (String.toList "_ratio") (interactionName a b) = false := by
    apply containsSub_eq_false
    rw [hpatR, interactionName_eq]
    exact not_infix_pairname (by decide) (by decide) hau hbu hbr (by decide)
  have hc2 : containsSub (String.toList "_interaction") (interactionName a b) = true := by
    rw [hpatI, interactionName_eq]
    exact (containsSub_iff _ _).mpr ⟨a ++ '_' :: b, [], by simp⟩
  rw [recreateStep, if_neg (by rw [hc1]; simp), if_pos hc2]
  have hrw : replaceAll (String.toList "_interaction") [] (interactionName a b) =
      a ++ '_' :: b := by
    rw [hpatI, interactionName_eq]
    exact replaceAll_pair_suffix (by decide) hau hbu hbi
  rw [hrw, splitOnChar_pair hau hbu]
  rw [if_pos (by simp : 2 ≤ ([a, b] : List Name).length)]
  rw [firstValidSplit_pair hamem hbmem]

/-- The reconstruction loop on a `_squared` feature of a clean base
column recomputes the square. -/
theorem recreateStep_squared (lg : ℚ → ℚ) (base : List Name) (nrows : ℕ)
    (eng : EngDF) {c : Name} (hcmem : c ∈ base) (hcc : CleanName c) :
    recreateStep lg base nrows eng (squaredName c) =
      eng.set (squaredName c) (squareVals (eng.get c)) := by
  obtain ⟨-, hcu, hcr, hci, -, -⟩ := hcc
  have hpatR : String.toList "_ratio" = '_' :: String.toList "ratio" := rfl
  have hpatI : String.toList "_interaction" = '_' :: String.toList "interaction" := rfl
  have hc1 : containsSub (String.toList "_ratio") (squaredName c) = false := by
    apply containsSub_eq_false
    rw [hpatR, squaredName_eq]
    exact not_infix_suffixname (by decide) hcu (by decide)
  have hc2 : containsSub (String.toList "_interaction") (squaredName c) = false := by
    apply containsSub_eq_false
    rw [hpatI, squaredName_eq]
    exact not_infix_suffixname (by decide) hcu (by decide)
  have hm : (squaredName c).reverse.head? = some 'd' :=
    reverse_head_append
      (show (String.toList "_squared").reverse = 'd' :: String.toList "erauqs_" by decide)
  have hc3 : (squaredName c == String.toList "combined_delays") = false := by
    rw [beq_eq_false_iff_ne, ne_eq]
    exact ne_of_reverse_head hm
      (show (String.toList "combined_delays").reverse.head? = some 's' by decide)
      (by decide)
  have hc4 : (squaredName c == String.toList "combined_counts") = false := by
    rw [beq_eq_false_iff_ne, ne_eq]
    exact ne_of_reverse_head hm
      (show (String.toList "combined_counts").reverse.head? = some 's' by decide)
      (by decide)
  have hc5 : endsWith (String.toList "_squared") (squaredName c) = true :=
    endsWith_append _ c
  rw [recreateStep, if_neg (by rw [hc1]; simp), if_neg (by rw [hc2]; simp),
    if_neg (by rw [hc3]; simp), if_neg (by rw [hc4]; simp), if_pos hc5]
  have hrw : replaceAll (String.toList "_squared") [] (squaredName c) = c := by
    rw [show String.toList "_squared" = '_' :: String.toList "squared" from rfl,
      squaredName_eq]
    exact replaceAll_stem_suffix hcu
  rw [hrw, if_pos (by simpa using hcmem)]

/-- The reconstruction loop on a `_log` feature of a clean base column
recomputes the conditional log. -/
theorem recreateStep_log (lg : ℚ → ℚ) (base : List Name) (nrows : ℕ)
    (eng : EngDF) {c : Name} (hcmem : c ∈ base) (hcc : CleanName c) :
    recreateStep lg base nrows eng (logName c) =
      eng.set (logName c) (logVals lg (eng.get c)) := by
  obtain ⟨-, hcu, hcr, hci, -, -⟩ := hcc
  have hpatR : String.toList "_ratio" = '_' :: String.toList "ratio" := rfl
  have hpatI : String.toList "_interaction" = '_' :: String.toList "interaction" := rfl
  have hc1 : containsSub (String.toList "_ratio") (logName c) = false := by
    apply containsSub_eq_false
    rw [hpatR, logName_eq]
    exact not_infix_suffixname (by decide) hcu (by decide)
  have hc2 : containsSub (String.toList "_interaction") (logName c) = false := by
    apply containsSub_eq_false
    rw [hpatI, logName_eq]
    exact not_infix_suffixname (by decide) hcu (by decide)
  have hm : (logName c).reverse.head? = some 'g' :=
    reverse_head_append
      (show (String.toList "_log").reverse = 'g' :: String.toList "ol_" by decide)
  have hc3 : (logName c == String.toList "combined_delays") = false := by
    rw [beq_eq_false_iff_ne, ne_eq]
    exact ne_of_reverse_head hm
      (show (String.toList "combined_delays").reverse.head? = some 's' by decide)
      (by decide)
  have hc4 : (logName c == String.toList "combined_counts") = false := by
    rw [beq_eq_false_iff_ne, ne_eq]
    exact ne_of_reverse_head hm
      (show (String.toList "combined_counts").reverse.head? = some 's' by decide)
      (by decide)
  have hs : (logName c).reverse = 'g' :: (String.toList "ol_" ++ c.reverse) := by
    rw [logName, List.reverse_append]
    rfl
  have hc5 : endsWith (String.toList "_squared") (logName c) = false :=
    endsWith_ne_last
      (show (String.toList "_squared").reverse = 'd' :: String.toList "erauqs_" by decide)
      hs (by decide)
  have hc6 : endsWith (String.toList "_log") (logName c) = true :=
    endsWith_append _ c
  rw [recreateStep, if_neg (by rw [hc1]; simp), if_neg (by rw [hc2]; simp),
    if_neg (by rw [hc3]; simp), if_neg (by rw [hc4]; simp), if_neg (by rw [hc5]; simp),
    if_pos hc6]
  have hrw : replaceAll (String.toList "_log") [] (logName c) = c := by
    rw [show String.toList "_log" = '_' :: String.toList "log" from rfl, logName_eq]
    exact replaceAll_stem_suffix hcu
  rw [hrw, if_pos (by simpa using hcmem)]

/-- The reconstruction loop on `combined_delays` (with at least two
delay columns) recomputes the row sum. -/
theorem recreateStep_delays (lg : ℚ → ℚ) (base : List Name) (nrows : ℕ)
    (eng : EngDF) (h : 1 < (base.filter isDelayCol).length) :
    recreateStep lg base nrows eng (String.toList "combined_delays") =
      eng.set (String.toList "combined_delays")
        (rowSumVals nrows ((base.filter isDelayCol).map (fun c => eng.get c))) := by
  rw [recreateStep, if_neg (by decide), if_neg (by decide), if_pos (by decide),
    if_pos h]

/-- The reconstruction loop on `combined_counts` (with at least two
count columns) recomputes the row sum. -/
theorem recreateStep_counts (lg : ℚ → ℚ) (base : List Name) (nrows : ℕ)
    (eng : EngDF) (h : 1 < (base.filter isCountCol).length) :
    recreateStep lg base nrows eng (String.toList "combined_counts") =
      eng.set (String.toList "combined_counts")
        (rowSumVals nrows ((base.filter isCountCol).map (fun c => eng.get c))) := by
  rw [recreateStep, if_neg (by decide), if_neg (by decide), if_neg (by decide),
    if_pos (by decide), if_pos h]

/-- The reconstruction loop as a generic column-appending fold: when
every processed name recomputes to a set of a value read off the base
selection, the loop appends the planned columns in order. -/
theorem recreate_fold_generic (lg : ℚ → ℚ) (df : RawDF) (base : List Name) :
    ∀ (S : List (Name × ((EngDF → List (Option ℚ)) × List (Option ℚ))))
      (D : List EngCol),
      (∀ s ∈ S, ∀ eng : EngDF, recreateStep lg base df.nrows eng s.1 =
        eng.set s.1 (s.2.1 eng)) →
      (∀ s ∈ S, ∀ X : List EngCol,
        s.2.1 ⟨df.nrows, (baseSelect df base).cols ++ X⟩ = s.2.2) →
      (base ++ (D.map EngCol.name ++ S.map (fun s => s.1))).Nodup →
      (S.map (fun s => s.1)).foldl (recreateStep lg base df.nrows)
        ⟨df.nrows, (baseSelect df base).cols ++ D⟩ =
      (⟨df.nrows, (baseSelect df base).cols ++
        (D ++ S.map (fun s => (⟨s.1, s.2.2⟩ : EngCol)))⟩ : EngDF) := by
  intro S
  induction S with
  | nil =>
    intro D _ _ _
    simp
  | cons s0 S' ih =>
    intro D hstep hread hnd
    rw [List.map_cons] at hnd
    rw [List.map_cons, List.foldl_cons]
    rw [hstep s0 (List.mem_cons_self _ _) ⟨df.nrows, (baseSelect df base).cols ++ D⟩]
    rw [hread s0 (List.mem_cons_self _ _) D]
    have hfr : EngDF.hasCol ⟨df.nrows, (baseSelect df base).cols ++ D⟩ s0.1 = false := by
      apply hasCol_eq_false_of_not_mem
      rw [List.map_append, baseSelect_names]
      intro hmm
      rw [List.nodup_append] at hnd
      rcases List.mem_append.mp hmm with h | h
      · exact hnd.2.2 h (List.mem_append_right _ (List.mem_cons_self _ _))
      · have h2 := hnd.2.1
        rw [List.nodup_append] at h2
        exact h2.2.2 h (List.mem_cons_self _ _)
    have hset : EngDF.set ⟨df.nrows, (baseSelect df base).cols ++ D⟩ s0.1 s0.2.2 =
        ⟨df.nrows, ((baseSelect df base).cols ++ D) ++ [⟨s0.1, s0.2.2⟩]⟩ :=
      EngDF_set_fresh hfr
    rw [hset, List.append_assoc]
    have hnd2 : (base ++ (((D ++ [(⟨s0.1, s0.2.2⟩ : EngCol)]).map EngCol.name) ++
        S'.map (fun s => s.1))).Nodup := by
      have he : base ++ (((D ++ [(⟨s0.1, s0.2.2⟩ : EngCol)]).map EngCol.name) ++
          S'.map (fun s => s.1)) =
          base ++ (D.map EngCol.name ++ (s0.1 :: S'.map (fun s => s.1))) := by
        simp
      rw [he]
      exact hnd
    have hih := ih (D ++ [(⟨s0.1, s0.2.2⟩ : EngCol)])
      (fun s hs eng => hstep s (List.mem_cons_of_mem _ hs) eng)
      (fun s hs X => hread s (List.mem_cons_of_mem _ hs) X)
      hnd2
    rw [hih]
    simp

theorem recreateSpec_fst (lg : ℚ → ℚ) (df : RawDF) (base : List Name) :
    (recreateSpec lg df base).map (fun s => s.1) =
      (basePairs df base).flatMap
        (fun p => [ratioName p.1 p.2, interactionName p.1 p.2]) ++
      (((if 1 < (base.filter isDelayCol).length then
          [String.toList "combined_delays"] else []) ++
        (if 1 < (base.filter isCountCol).length then
          [String.toList "combined_counts"] else [])) ++
        base.flatMap (fun col =>
          if (numericNames df).contains col then
            squaredName col :: (if anyPositive ((baseSelect df base).get col) then
              [logName col] else [])
          else [])) := by
  rw [recreateSpec]
  simp only [List.map_append]
  rw [List.map_flatMap, List.map_flatMap]
  apply congrArg₂ (· ++ ·)
  · apply List.flatMap_congr
    intro p _
    rfl
  apply congrArg₂ (· ++ ·)
  · apply congrArg₂ (· ++ ·)
    · by_cases hd : 1 < (base.filter isDelayCol).length <;> simp [hd]
    · by_cases hc : 1 < (base.filter isCountCol).length <;> simp [hc]
  · apply List.flatMap_congr
    intro col _
    by_cases hn : (numericNames df).contains col = true
    · have hn2 : col ∈ numericNames df := by simpa using hn
      by_cases hp : anyPositive ((baseSelect df base).get col) = true <;>
        simp [hn, hn2, hp]
    · have hn2 : col ∉ numericNames df := by simpa using hn
      simp [hn, hn2]

theorem recreateSpec_col (lg : ℚ → ℚ) (df : RawDF) (base : List Name) :
    (recreateSpec lg df base).map (fun s => (⟨s.1, s.2.2⟩ : EngCol)) =
      pairCols df base ++ (aggCols df base ++ sqLogCols lg df base) := by
  rw [recreateSpec, pairCols, aggCols, sqLogCols]
  simp only [List.map_append]
  rw [List.map_flatMap, List.map_flatMap]
  apply congrArg₂ (· ++ ·)
  · apply List.flatMap_congr
    intro p _
    rfl
  apply congrArg₂ (· ++ ·)
  · apply congrArg₂ (· ++ ·)
    · by_cases hd : 1 < (base.filter isDelayCol).length <;> simp [hd]
    · by_cases hc : 1 < (base.filter isCountCol).length <;> simp [hc]
  · apply List.flatMap_congr
    intro col _
    by_cases hn : (numericNames df).contains col = true
    · have hn2 : col ∈ numericNames df := by simpa using hn
      by_cases hp : anyPositive ((baseSelect df base).get col) = true <;>
        simp [hn, hn2, hp]
    · have hn2 : col ∉ numericNames df := by simpa using hn
      simp [hn, hn2]

theorem recreateSpec_step (lg : ℚ → ℚ) (df : RawDF) (base : List Name)
    (hclean : ∀ b ∈ base, CleanName b) :
    ∀ s ∈ recreateSpec lg df base, ∀ eng : EngDF,
      recreateStep lg base df.nrows eng s.1 = eng.set s.1 (s.2.1 eng) := by
  intro s hs eng
  rw [recreateSpec] at hs
  rcases List.mem_append.mp hs with h | h
  · obtain ⟨p, hp, hsp⟩ := List.mem_flatMap.mp h
    obtain ⟨h1, h2⟩ := mem_basePairs hp
    rcases List.mem_cons.mp hsp with rfl | hsp
    · exact recreateStep_ratio lg base df.nrows eng h1 h2 (hclean _ h1) (hclean _ h2)
    · rcases List.mem_singleton.mp hsp with rfl
      exact recreateStep_interaction lg base df.nrows eng h1 h2
        (hclean _ h1) (hclean _ h2)
  · rcases List.mem_append.mp h with h | h
    · rcases List.mem_append.mp h with h | h
      · by_cases hd : 1 < (base.filter isDelayCol).length
        · rw [if_pos hd] at h
          rcases List.mem_singleton.mp h with rfl
          exact recreateStep_delays lg base df.nrows eng hd
        · rw [if_neg hd] at h
          exact absurd h (List.not_mem_nil _)
      · by_cases hc : 1 < (base.filter isCountCol).length
        · rw [if_pos hc] at h
          rcases List.mem_singleton.mp h with rfl
          exact recreateStep_counts lg base df.nrows eng hc
        · rw [if_neg hc] at h
          exact absurd h (List.not_mem_nil _)
    · obtain ⟨col, hcol, hscol⟩ := List.mem_flatMap.mp h
      by_cases hn : (numericNames df).contains col = true
      · rw [if_pos hn] at hscol
        rcases List.mem_cons.mp hscol with rfl | hscol
        · exact recreateStep_squared lg base df.nrows eng hcol (hclean _ hcol)
        · by_cases hp : anyPositive ((baseSelect df base).get col) = true
          · rw [if_pos hp] at hscol
            rcases List.mem_singleton.mp hscol with rfl
            exact recreateStep_log lg base df.nrows eng hcol (hclean _ hcol)
          · rw [if_neg hp] at hscol
            exact absurd hscol (List.not_mem_nil _)
      · rw [if_neg hn] at hscol
        exact absurd hscol (List.not_mem_nil _)

theorem recreateSpec_read (lg : ℚ → ℚ) (df : RawDF) (base : List Name) :
    ∀ s ∈ recreateSpec lg df base, ∀ X : List EngCol,
      s.2.1 ⟨df.nrows, (baseSelect df base).cols ++ X⟩ = s.2.2 := by
  intro s hs X
  have hget : ∀ b ∈ base,
      EngDF.get ⟨df.nrows, (baseSelect df base).cols ++ X⟩ b =
        (baseSelect df base).get b := fun b hb =>
    get_append_left (by rw [baseSelect_names]; exact hb)
  rw [recreateSpec] at hs
  rcases List.mem_append.mp hs with h | h
  · obtain ⟨p, hp, hsp⟩ := List.mem_flatMap.mp h
    obtain ⟨h1, h2⟩ := mem_basePairs hp
    rcases List.mem_cons.mp hsp with rfl | hsp
    · exact congrArg₂ ratioVals (hget p.1 h1) (hget p.2 h2)
    · rcases List.mem_singleton.mp hsp with rfl
      exact congrArg₂ prodVals (hget p.1 h1) (hget p.2 h2)
  · rcases List.mem_append.mp h with h | h
    · rcases List.mem_append.mp h with h | h
      · by_cases hd : 1 < (base.filter isDelayCol).length
        · rw [if_pos hd] at h
          rcases List.mem_singleton.mp h with rfl
          exact congrArg (rowSumVals df.nrows)
            (List.map_congr_left (fun c hc => hget c (List.mem_of_mem_filter hc)))
        · rw [if_neg hd] at h
          exact absurd h (List.not_mem_nil _)
      · by_cases hc : 1 < (base.filter isCountCol).length
        · rw [if_pos hc] at h
          rcases List.mem_singleton.mp h with rfl
          exact congrArg (rowSumVals df.nrows)
            (List.map_congr_left (fun c hc2 => hget c (List.mem_of_mem_filter hc2)))
        · rw [if_neg hc] at h
          exact absurd h (List.not_mem_nil _)
    · obtain ⟨col, hcol, hscol⟩ := List.mem_flatMap.mp h
      by_cases hn : (numericNames df).contains col = true
      · rw [if_pos hn] at hscol
        rcases List.mem_cons.mp hscol with rfl | hscol
        · exact congrArg squareVals (hget col hcol)
        · by_cases hp : anyPositive ((baseSelect df base).get col) = true
          · rw [if_pos hp] at hscol
            rcases List.mem_singleton.mp hscol with rfl
            exact congrArg (logVals lg) (hget col hcol)
          · rw [if_neg hp] at hscol
            exact absurd hscol (List.not_mem_nil _)
      · rw [if_neg hn] at hscol
        exact absurd hscol (List.not_mem_nil _)

/-- Selecting, in name order, the columns of a duplicate-free table
reproduces the table. -/
theorem reorder_id (nr : ℕ) : ∀ (cols : List EngCol), (cols.map EngCol.name).Nodup →
    (cols.map EngCol.name).map (fun c =>
      if EngDF.hasCol ⟨nr, cols⟩ c then (⟨c, EngDF.get ⟨nr, cols⟩ c⟩ : EngCol)
      else ⟨c, List.replicate nr (some 0)⟩) = cols := by
  intro cols
  induction cols with
  | nil =>
    intro _
    simp
  | cons c0 rest ih =>
    intro hnd
    rw [List.map_cons] at hnd
    obtain ⟨hnotin, hndr⟩ := List.nodup_cons.mp hnd
    rw [List.map_cons, List.map_cons]
    have hhas0 : EngDF.hasCol ⟨nr, c0 :: rest⟩ c0.name = true := by
      rw [hasCol_iff_mem, List.map_cons]
      exact List.mem_cons_self _ _
    rw [if_pos hhas0]
    have hget0 : EngDF.get ⟨nr, c0 :: rest⟩ c0.name = c0.vals := by
      rw [EngDF.get, List.find?_cons_of_pos _ (by simp)]
    rw [hget0]
    have hc0 : (⟨c0.name, c0.vals⟩ : EngCol) = c0 := rfl
    rw [hc0]
    have hmc : (rest.map EngCol.name).map (fun c =>
        if EngDF.hasCol ⟨nr, c0 :: rest⟩ c then
          (⟨c, EngDF.get ⟨nr, c0 :: rest⟩ c⟩ : EngCol)
        else ⟨c, List.replicate nr (some 0)⟩) =
        (rest.map EngCol.name).map (fun c =>
        if EngDF.hasCol ⟨nr, rest⟩ c then (⟨c, EngDF.get ⟨nr, rest⟩ c⟩ : EngCol)
        else ⟨c, List.replicate nr (some 0)⟩) := by
      apply List.map_congr_left
      intro n hn
      have hne : ¬ (c0.name == n) = true := by
        simp only [beq_iff_eq]
        intro he
        exact hnotin (he ▸ hn)
      have h1 : EngDF.hasCol ⟨nr, c0 :: rest⟩ n = EngDF.hasCol ⟨nr, rest⟩ n := by
        rw [EngDF.hasCol, EngDF.hasCol, List.any_cons]
        simp [hne]
      have hbe : (c0.name == n) = false := by
        simpa using hne
      have h2 : EngDF.get ⟨nr, c0 :: rest⟩ n = EngDF.get ⟨nr, rest⟩ n := by
        simp only [EngDF.get, List.find?, hbe]
      rw [h1, h2]
    rw [hmc, ih hndr]

/-- `recreate_trained_features` on the planned feature names of a table
with clean, distinct base columns rebuilds exactly the planned column
list, median-filled. -/
theorem recreate_eq_plan (lg : ℚ → ℚ) (df : RawDF) (base : List Name)
    (hall : base.all (fun b => (findCol df b).isSome) = true)
    (hnd : ((plannedCols lg df base).map EngCol.name).Nodup)
    (hclean : ∀ b ∈ base, CleanName b) :
    recreate_trained_features lg df ((plannedCols lg df base).map EngCol.name) base =
      .ok (fillMedians ⟨df.nrows, plannedCols lg df base⟩) := by
  simp only [recreate_trained_features, recreateEngineered]
  rw [if_pos hall]
  have hnames : (plannedCols lg df base).map EngCol.name =
      base ++ ((basePairs df base).flatMap
          (fun p => [ratioName p.1 p.2, interactionName p.1 p.2]) ++
        (((if 1 < (base.filter isDelayCol).length then
            [String.toList "combined_delays"] else []) ++
          (if 1 < (base.filter isCountCol).length then
            [String.toList "combined_counts"] else [])) ++
          base.flatMap (fun col =>
            if (numericNames df).contains col then
              squaredName col :: (if anyPositive ((baseSelect df base).get col) then
                [logName col] else [])
            else []))) := by
    rw [plannedCols]
    simp only [List.map_append, baseSelect_names, pairCols_names, aggCols_names,
      sqLogCols_names, List.append_assoc]
  have hndD : (base ++ ((basePairs df base).flatMap
      (fun p => [ratioName p.1 p.2, interactionName p.1 p.2]) ++
      (((if 1 < (base.filter isDelayCol).length then
          [String.toList "combined_delays"] else []) ++
        (if 1 < (base.filter isCountCol).length then
          [String.toList "combined_counts"] else [])) ++
        base.flatMap (fun col =>
          if (numericNames df).contains col then
            squaredName col :: (if anyPositive ((baseSelect df base).get col) then
              [logName col] else [])
          else [])))).Nodup := by
    rw [← hnames]
    exact hnd
  have hfilter : ((plannedCols lg df base).map EngCol.name).filter
      (fun c => !(base.contains c)) =
      (basePairs df base).flatMap
        (fun p => [ratioName p.1 p.2, interactionName p.1 p.2]) ++
      (((if 1 < (base.filter isDelayCol).length then
          [String.toList "combined_delays"] else []) ++
        (if 1 < (base.filter isCountCol).length then
          [String.toList "combined_counts"] else [])) ++
        base.flatMap (fun col =>
          if (numericNames df).contains col then
            squaredName col :: (if anyPositive ((baseSelect df base).get col) then
              [logName col] else [])
          else [])) := by
    rw [hnames, List.filter_append]
    have h1 : base.filter (fun c => !(base.contains c)) = [] := by
      rw [List.filter_eq_nil_iff]
      intro a ha
      simpa using ha
    have h2 : ((basePairs df base).flatMap
        (fun p => [ratioName p.1 p.2, interactionName p.1 p.2]) ++
        (((if 1 < (base.filter isDelayCol).length then
            [String.toList "combined_delays"] else []) ++
          (if 1 < (base.filter isCountCol).length then
            [String.toList "combined_counts"] else [])) ++
          base.flatMap (fun col =>
            if (numericNames df).contains col then
              squaredName col :: (if anyPositive ((baseSelect df base).get col) then
                [logName col] else [])
            else []))).filter (fun c => !(base.contains c)) =
        (basePairs df base).flatMap
          (fun p => [ratioName p.1 p.2, interactionName p.1 p.2]) ++
        (((if 1 < (base.filter isDelayCol).length then
            [String.toList "combined_delays"] else []) ++
          (if 1 < (base.filter isCountCol).length then
            [String.toList "combined_counts"] else [])) ++
          base.flatMap (fun col =>
            if (numericNames df).contains col then
              squaredName col :: (if anyPositive ((baseSelect df base).get col) then
                [logName col] else [])
            else [])) := by
      rw [List.filter_eq_self]
      intro n hn2
      have hnb : n ∉ base := by
        intro hmem
        exact (List.nodup_append.mp hndD).2.2 hmem hn2
      simpa using hnb
    rw [h1, h2, List.nil_append]
  rw [hfilter]
  rw [← recreateSpec_fst lg df base]
  have hinit : baseSelect df base =
      (⟨df.nrows, (baseSelect df base).cols ++ ([] : List EngCol)⟩ : EngDF) := by
    rw [List.append_nil]
    rfl
  rw [hinit]
  have hndG : (base ++ ((([] : List EngCol)).map EngCol.name ++
      (recreateSpec lg df base).map (fun s => s.1))).Nodup := by
    have he : base ++ ((([] : List EngCol)).map EngCol.name ++
        (recreateSpec lg df base).map (fun s => s.1)) =
        base ++ ((basePairs df base).flatMap
          (fun p => [ratioName p.1 p.2, interactionName p.1 p.2]) ++
        (((if 1 < (base.filter isDelayCol).length then
            [String.toList "combined_delays"] else []) ++
          (if 1 < (base.filter isCountCol).length then
            [String.toList "combined_counts"] else [])) ++
          base.flatMap (fun col =>
            if (numericNames df).contains col then
              squaredName col :: (if anyPositive ((baseSelect df base).get col) then
                [logName col] else [])
            else []))) := by
      rw [recreateSpec_fst]
      simp
    rw [he]
    exact hndD
  have hgen := recreate_fold_generic lg df base (recreateSpec lg df base)
    ([] : List EngCol) (recreateSpec_step lg df base hclean)
    (recreateSpec_read lg df base) hndG
  rw [hgen]
  have hcols : (baseSelect df base).cols ++ (([] : List EngCol) ++
      (recreateSpec lg df base).map (fun s => (⟨s.1, s.2.2⟩ : EngCol))) =
      plannedCols lg df base := by
    rw [List.nil_append, recreateSpec_col]
    simp [plannedCols, List.append_assoc]
  rw [hcols]
  have hfm : fillMedians ⟨df.nrows, plannedCols lg df base⟩ =
      ⟨df.nrows, (plannedCols lg df base).map
        (fun c => (⟨c.name, fillColMedian c.vals⟩ : EngCol))⟩ := rfl
  rw [hfm]
  have htr : (plannedCols lg df base).map EngCol.name =
      ((plannedCols lg df base).map
        (fun c => (⟨c.name, fillColMedian c.vals⟩ : EngCol))).map EngCol.name := by
    rw [List.map_map]
    apply List.map_congr_left
    intro c _
    rfl
  rw [htr]
  rw [reorder_id df.nrows ((plannedCols lg df base).map
    (fun c => (⟨c.name, fillColMedian c.vals⟩ : EngCol))) (by rw [← htr]; exact hnd)]

/-! ### Distinctness of the planned names -/

theorem ratioName_append (a b : Name) :
    ratioName a b = (a ++ '_' :: b) ++ String.toList "_ratio" := by
  simp [ratioName]

theorem interactionName_append (a b : Name) :
    interactionName a b = (a ++ '_' :: b) ++ String.toList "_interaction" := by
  simp [interactionName]

theorem ratioName_rev (a b : Name) : (ratioName a b).reverse.head? = some 'o' := by
  rw [ratioName_append]
  exact reverse_head_append
    (show (String.toList "_ratio").reverse = 'o' :: String.toList "itar_" by decide)

theorem interactionName_rev (a b : Name) :
    (interactionName a b).reverse.head? = some 'n' := by
  rw [interactionName_append]
  exact reverse_head_append
    (show (String.toList "_interaction").reverse = 'n' :: String.toList "oitcaretni_"
      by decide)

theorem squaredName_rev (c : Name) : (squaredName c).reverse.head? = some 'd' :=
  reverse_head_append
    (show (String.toList "_squared").reverse = 'd' :: String.toList "erauqs_" by decide)

theorem logName_rev (c : Name) : (logName c).reverse.head? = some 'g' :=
  reverse_head_append
    (show (String.toList "_log").reverse = 'g' :: String.toList "ol_" by decide)

theorem ratioName_inj {a b c d : Name} (ha : '_' ∉ a) (hb : '_' ∉ b)
    (hc : '_' ∉ c) (hd : '_' ∉ d) (h : ratioName a b = ratioName c d) :
    a = c ∧ b = d := by
  rw [ratioName_eq, ratioName_eq] at h
  obtain ⟨h1, h2⟩ := underscore_append_inj ha hc h
  obtain ⟨h3, -⟩ := underscore_append_inj hb hd h2
  exact ⟨h1, h3⟩

theorem interactionName_inj {a b c d : Name} (ha : '_' ∉ a) (hb : '_' ∉ b)
    (hc : '_' ∉ c) (hd : '_' ∉ d) (h : interactionName a b = interactionName c d) :
    a = c ∧ b = d := by
  rw [interactionName_eq, interactionName_eq] at h
  obtain ⟨h1, h2⟩ := underscore_append_inj ha hc h
  obtain ⟨h3, -⟩ := underscore_append_inj hb hd h2
  exact ⟨h1, h3⟩

theorem squaredName_inj {c d : Name} (hc : '_' ∉ c) (hd : '_' ∉ d)
    (h : squaredName c = squaredName d) : c = d := by
  rw [squaredName_eq, squaredName_eq] at h
  exact (underscore_append_inj hc hd h).1

theorem logName_inj {c d : Name} (hc : '_' ∉ c) (hd : '_' ∉ d)
    (h : logName c = logName d) : c = d := by
  rw [logName_eq, logName_eq] at h
  exact (underscore_append_inj hc hd h).1

theorem mem_pairNames {df : RawDF} {base : List Name} {n : Name}
    (h : n ∈ pairNames df base) :
    ∃ p, p ∈ basePairs df base ∧
      (n = ratioName p.1 p.2 ∨ n = interactionName p.1 p.2) := by
  rw [pairNames] at h
  obtain ⟨p, hp, hn⟩ := List.mem_flatMap.mp h
  rcases List.mem_cons.mp hn with rfl | hn
  · exact ⟨p, hp, Or.inl rfl⟩
  · rcases List.mem_singleton.mp hn with rfl
    exact ⟨p, hp, Or.inr rfl⟩

theorem mem_aggNames {base : List Name} {n : Name} (h : n ∈ aggNames base) :
    n = String.toList "combined_delays" ∨ n = String.toList "combined_counts" := by
  rw [aggNames] at h
  rcases List.mem_append.mp h with h | h
  · by_cases hd : 1 < (base.filter isDelayCol).length
    · rw [if_pos hd] at h
      exact Or.inl (List.mem_singleton.mp h)
    · rw [if_neg hd] at h
      exact absurd h (List.not_mem_nil _)
  · by_cases hc : 1 < (base.filter isCountCol).length
    · rw [if_pos hc] at h
      exact Or.inr (List.mem_singleton.mp h)
    · rw [if_neg hc] at h
      exact absurd h (List.not_mem_nil _)

theorem mem_sqLogNames {df : RawDF} {base : List Name} {n : Name}
    (h : n ∈ sqLogNames df base) :
    ∃ c, c ∈ base ∧ (n = squaredName c ∨ n = logName c) := by
  rw [sqLogNames] at h
  obtain ⟨c, hc, hn⟩ := List.mem_flatMap.mp h
  by_cases hnum : (numericNames df).contains c = true
  · rw [if_pos hnum] at hn
    rcases List.mem_cons.mp hn with rfl | hn
    · exact ⟨c, hc, Or.inl rfl⟩
    · by_cases hp : anyPositive ((baseSelect df base).get c) = true
      · rw [if_pos hp] at hn
        rcases List.mem_singleton.mp hn with rfl
        exact ⟨c, hc, Or.inr rfl⟩
      · rw [if_neg hp] at hn
        exact absurd hn (List.not_mem_nil _)
  · rw [if_neg hnum] at hn
    exact absurd hn (List.not_mem_nil _)

theorem head_mem_pairNames {df : RawDF} {base : List Name} {n : Name}
    (h : n ∈ pairNames df base) :
    n.reverse.head? = some 'o' ∨ n.reverse.head? = some 'n' := by
  obtain ⟨p, -, hor⟩ := mem_pairNames h
  rcases hor with rfl | rfl
  · exact Or.inl (ratioName_rev _ _)
  · exact Or.inr (interactionName_rev _ _)

theorem head_mem_aggNames {base : List Name} {n : Name} (h : n ∈ aggNames base) :
    n.reverse.head? = some 's' := by
  rcases mem_aggNames h with rfl | rfl <;> decide

theorem head_mem_sqLogNames {df : RawDF} {base : List Name} {n : Name}
    (h : n ∈ sqLogNames df base) :
    n.reverse.head? = some 'd' ∨ n.reverse.head? = some 'g' := by
  obtain ⟨c, -, hor⟩ := mem_sqLogNames h
  rcases hor with rfl | rfl
  · exact Or.inl (squaredName_rev _)
  · exact Or.inr (logName_rev _)

theorem pairNames_nodup_aux : ∀ (P : List (Name × Name)), P.Nodup →
    (∀ p ∈ P, '_' ∉ p.1 ∧ '_' ∉ p.2) →
    (P.flatMap (fun p => [ratioName p.1 p.2, interactionName p.1 p.2])).Nodup := by
  intro P
  induction P with
  | nil =>
    intro _ _
    simp
  | cons p P' ih =>
    intro hnd hcl
    obtain ⟨hp1, hp2⟩ := hcl p (List.mem_cons_self _ _)
    obtain ⟨hpnotin, hndP⟩ := List.nodup_cons.mp hnd
    have hmemrest : ∀ n ∈ P'.flatMap
        (fun p => [ratioName p.1 p.2, interactionName p.1 p.2]),
        ∃ q, q ∈ P' ∧ (n = ratioName q.1 q.2 ∨ n = interactionName q.1 q.2) := by
      intro n hn
      obtain ⟨q, hq, hn2⟩ := List.mem_flatMap.mp hn
      rcases List.mem_cons.mp hn2 with rfl | hn2
      · exact ⟨q, hq, Or.inl rfl⟩
      · rcases List.mem_singleton.mp hn2 with rfl
        exact ⟨q, hq, Or.inr rfl⟩
    rw [List.flatMap_cons]
    rw [show ([ratioName p.1 p.2, interactionName p.1 p.2] : List Name) ++
        P'.flatMap (fun p => [ratioName p.1 p.2, interactionName p.1 p.2]) =
        ratioName p.1 p.2 :: interactionName p.1 p.2 ::
        P'.flatMap (fun p => [ratioName p.1 p.2, interactionName p.1 p.2]) from rfl]
    rw [List.nodup_cons, List.nodup_cons]
    refine ⟨?_, ?_, ih hndP (fun q hq => hcl q (List.mem_cons_of_mem _ hq))⟩
    · intro hmem
      rcases List.mem_cons.mp hmem with heq | hmem
      · exact ne_of_reverse_head (ratioName_rev p.1 p.2)
          (interactionName_rev p.1 p.2) (by decide) heq
      · obtain ⟨q, hq, hor⟩ := hmemrest _ hmem
        obtain ⟨hq1, hq2⟩ := hcl q (List.mem_cons_of_mem _ hq)
        rcases hor with heq | heq
        · obtain ⟨he1, he2⟩ := ratioName_inj hp1 hp2 hq1 hq2 heq
          apply hpnotin
          rw [Prod.ext_iff.mpr ⟨he1, he2⟩]
          exact hq
        · exact ne_of_reverse_head (ratioName_rev p.1 p.2)
            (interactionName_rev q.1 q.2) (by decide) heq
    · intro hmem
      obtain ⟨q, hq, hor⟩ := hmemrest _ hmem
      obtain ⟨hq1, hq2⟩ := hcl q (List.mem_cons_of_mem _ hq)
      rcases hor with heq | heq
      · exact ne_of_reverse_head (interactionName_rev p.1 p.2)
          (ratioName_rev q.1 q.2) (by decide) heq
      · obtain ⟨he1, he2⟩ := interactionName_inj hp1 hp2 hq1 hq2 heq
        apply hpnotin
        rw [Prod.ext_iff.mpr ⟨he1, he2⟩]
        exact hq

theorem pairNames_nodup (df : RawDF) (base : List Name)
    (hnum : (numericNames df).Nodup) (hclean : ∀ b ∈ base, CleanName b) :
    (pairNames df base).Nodup := by
  rw [pairNames]
  apply pairNames_nodup_aux
  · exact List.Nodup.filter _ (ordPairs_nodup hnum)
  · intro p hp
    obtain ⟨h1, h2⟩ := mem_basePairs hp
    exact ⟨(hclean _ h1).2.1, (hclean _ h2).2.1⟩

theorem aggNames_nodup (base : List Name) : (aggNames base).Nodup := by
  rw [aggNames]
  by_cases hd : 1 < (base.filter isDelayCol).length
  · by_cases hc : 1 < (base.filter isCountCol).length
    · rw [if_pos hd, if_pos hc]
      decide
    · rw [if_pos hd, if_neg hc]
      decide
  · by_cases hc : 1 < (base.filter isCountCol).length
    · rw [if_neg hd, if_pos hc]
      decide
    · rw [if_neg hd, if_neg hc]
      decide

theorem sqLogNames_nodup_aux (df : RawDF) (base : List Name) :
    ∀ (C : List Name), C.Nodup → (∀ c ∈ C, '_' ∉ c) →
    (C.flatMap (fun col =>
      if (numericNames df).contains col then
        squaredName col :: (if anyPositive ((baseSelect df base).get col) then
          [logName col] else [])
      else [])).Nodup := by
  intro C
  induction C with
  | nil =>
    intro _ _
    simp
  | cons col C' ih =>
    intro hnd hcl
    have hcolu := hcl col (List.mem_cons_self _ _)
    obtain ⟨hnotin, hndC⟩ := List.nodup_cons.mp hnd
    have ihr := ih hndC (fun c hc => hcl c (List.mem_cons_of_mem _ hc))
    have hmemrest : ∀ n ∈ C'.flatMap (fun col =>
        if (numericNames df).contains col then
          squaredName col :: (if anyPositive ((baseSelect df base).get col) then
            [logName col] else [])
        else []),
        ∃ c, c ∈ C' ∧ (n = squaredName c ∨ n = logName c) := by
      intro n hn
      obtain ⟨c, hc, hn2⟩ := List.mem_flatMap.mp hn
      by_cases hnum : (numericNames df).contains c = true
      · rw [if_pos hnum] at hn2
        rcases List.mem_cons.mp hn2 with rfl | hn2
        · exact ⟨c, hc, Or.inl rfl⟩
        · by_cases hp : anyPositive ((baseSelect df base).get c) = true
          · rw [if_pos hp] at hn2
            rcases List.mem_singleton.mp hn2 with rfl
            exact ⟨c, hc, Or.inr rfl⟩
          · rw [if_neg hp] at hn2
            exact absurd hn2 (List.not_mem_nil _)
      · rw [if_neg hnum] at hn2
        exact absurd hn2 (List.not_mem_nil _)
    have hsqnotin : squaredName col ∉ C'.flatMap (fun col =>
        if (numericNames df).contains col then
          squaredName col :: (if anyPositive ((baseSelect df base).get col) then
            [logName col] else [])
        else []) := by
      intro hmem
      obtain ⟨c, hc, hor⟩ := hmemrest _ hmem
      rcases hor with heq | heq
      · apply hnotin
        rw [squaredName_inj hcolu (hcl c (List.mem_cons_of_mem _ hc)) heq]
        exact hc
      · exact ne_of_reverse_head (squaredName_rev col) (logName_rev c)
          (by decide) heq
    have hlognotin : logName col ∉ C'.flatMap (fun col =>
        if (numericNames df).contains col then
          squaredName col :: (if anyPositive ((baseSelect df base).get col) then
            [logName col] else [])
        else []) := by
      intro hmem
      obtain ⟨c, hc, hor⟩ := hmemrest _ hmem
      rcases hor with heq | heq
      · exact ne_of_reverse_head (logName_rev col) (squaredName_rev c)
          (by decide) heq
      · apply hnotin
        rw [logName_inj hcolu (hcl c (List.mem_cons_of_mem _ hc)) heq]
        exact hc
    rw [List.flatMap_cons]
    by_cases hnum : (numericNames df).contains col = true
    · rw [if_pos hnum]
      by_cases hp : anyPositive ((baseSelect df base).get col) = true
      · rw [if_pos hp]
        rw [show (squaredName col :: [logName col]) ++ C'.flatMap (fun col =>
            if (numericNames df).contains col then
              squaredName col :: (if anyPositive ((baseSelect df base).get col) then
                [logName col] else [])
            else []) =
            squaredName col :: logName col :: C'.flatMap (fun col =>
            if (numericNames df).contains col then
              squaredName col :: (if anyPositive ((baseSelect df base).get col) then
                [logName col] else [])
            else []) from rfl]
        rw [List.nodup_cons, List.nodup_cons]
        refine ⟨?_, hlognotin, ihr⟩
        intro hmem
        rcases List.mem_cons.mp hmem with heq | hmem
        · exact ne_of_reverse_head (squaredName_rev col) (logName_rev col)
            (by decide) heq
        · exact hsqnotin hmem
      · rw [if_neg hp]
        rw [show (squaredName col :: ([] : List Name)) ++ C'.flatMap (fun col =>
            if (numericNames df).contains col then
              squaredName col :: (if anyPositive ((baseSelect df base).get col) then
                [logName col] else [])
            else []) =
            squaredName col :: C'.flatMap (fun col =>
            if (numericNames df).contains col then
              squaredName col :: (if anyPositive ((baseSelect df base).get col) then
                [logName col] else [])
            else []) from rfl]
        rw [List.nodup_cons]
        exact ⟨hsqnotin, ihr⟩
    · rw [if_neg hnum, List.nil_append]
      exact ihr

theorem sqLogNames_nodup (df : RawDF) (base : List Name) (hbnd : base.Nodup)
    (hclean : ∀ b ∈ base, CleanName b) : (sqLogNames df base).Nodup := by
  rw [sqLogNames]
  exact sqLogNames_nodup_aux df base base hbnd (fun c hc => (hclean c hc).2.1)

/-- The planned names, decomposed into the base names and the three
derived groups. -/
theorem planned_names_decomp (lg : ℚ → ℚ) (df : RawDF) (base : List Name) :
    (plannedCols lg df base).map EngCol.name =
      base ++ (pairNames df base ++ (aggNames base ++ sqLogNames df base)) := by
  rw [plannedCols, pairNames, aggNames, sqLogNames]
  simp only [List.map_append, baseSelect_names, pairCols_names, aggCols_names,
    sqLogCols_names, List.append_assoc]

/-- On a table with distinct column names and distinct clean base
columns, all planned column names are distinct. -/
theorem plannedNames_nodup (lg : ℚ → ℚ) (df : RawDF) (base : List Name)
    (hdfnd : (df.cols.map RawCol.name).Nodup) (hbnd : base.Nodup)
    (hclean : ∀ b ∈ base, CleanName b) :
    ((plannedCols lg df base).map EngCol.name).Nodup := by
  rw [planned_names_decomp]
  have hnum : (numericNames df).Nodup :=
    List.Nodup.sublist (List.Sublist.map _ (List.filter_sublist _)) hdfnd
  rw [List.nodup_append]
  refine ⟨hbnd, ?_, ?_⟩
  · rw [List.nodup_append]
    refine ⟨pairNames_nodup df base hnum hclean, ?_, ?_⟩
    · rw [List.nodup_append]
      refine ⟨aggNames_nodup base, sqLogNames_nodup df base hbnd hclean, ?_⟩
      intro n h1 h2
      have ha := head_mem_aggNames h1
      rcases head_mem_sqLogNames h2 with hh | hh <;>
        exact absurd (ha.symm.trans hh) (by decide)
    · intro n h1 h2
      rcases head_mem_pairNames h1 with hh1 | hh1 <;>
        rcases List.mem_append.mp h2 with h2 | h2
      · exact absurd (hh1.symm.trans (head_mem_aggNames h2)) (by decide)
      · rcases head_mem_sqLogNames h2 with hh2 | hh2 <;>
          exact absurd (hh1.symm.trans hh2) (by decide)
      · exact absurd (hh1.symm.trans (head_mem_aggNames h2)) (by decide)
      · rcases head_mem_sqLogNames h2 with hh2 | hh2 <;>
          exact absurd (hh1.symm.trans hh2) (by decide)
  · intro n h1 h2
    apply (hclean n h1).2.1
    rcases List.mem_append.mp h2 with h2 | h2
    · obtain ⟨p, -, hor⟩ := mem_pairNames h2
      rcases hor with rfl | rfl
      · rw [ratioName_eq]
        exact underscore_mem_append_cons _ _
      · rw [interactionName_eq]
        exact underscore_mem_append_cons _ _
    · rcases List.mem_append.mp h2 with h2 | h2
      · rcases mem_aggNames h2 with rfl | rfl <;> decide
      · obtain ⟨c, -, hor⟩ := mem_sqLogNames h2
        rcases hor with rfl | rfl
        · rw [squaredName_eq]
          exact underscore_mem_append_cons _ _
        · rw [logName_eq]
          exact underscore_mem_append_cons _ _

/-- C1 (corrected): under the amended hypotheses — distinct raw-table
column names, distinct base columns all present in the table, and clean
base names (non-empty, no underscore, not containing `ratio`,
`interaction`, `squared` or `log` as a substring) — the round-trip
holds: `create_dynamic_features` succeeds with an engineered table, and
`recreate_trained_features` on the unchanged table with that table's
column-name list returns exactly the same engineered table (same
values, same column order). -/
theorem C1_roundtrip_amended (lg : ℚ → ℚ) (df : RawDF) (base : List Name)
    (hdfnd : (df.cols.map RawCol.name).Nodup) (hbnd : base.Nodup)
    (hpres : ∀ b ∈ base, (findCol df b).isSome = true)
    (hclean : ∀ b ∈ base, CleanName b) :
    ∃ eng : EngDF,
      create_dynamic_features lg df base = .ok eng ∧
      recreate_trained_features lg df (eng.cols.map EngCol.name) base = .ok eng := by
  have hall : base.all (fun b => (findCol df b).isSome) = true :=
    List.all_eq_true.mpr (fun b hb => hpres b hb)
  have hnd := plannedNames_nodup lg df base hdfnd hbnd hclean
  refine ⟨fillMedians ⟨df.nrows, plannedCols lg df base⟩,
    create_eq_plan lg df base hall hnd, ?_⟩
  have hnm : (fillMedians ⟨df.nrows, plannedCols lg df base⟩).cols.map EngCol.name =
      (plannedCols lg df base).map EngCol.name := by
    show ((plannedCols lg df base).map
      (fun c => (⟨c.name, fillColMedian c.vals⟩ : EngCol))).map EngCol.name =
      (plannedCols lg df base).map EngCol.name
    rw [List.map_map]
    apply List.map_congr_left
    intro c _
    rfl
  rw [hnm]
  exact recreate_eq_plan lg df base hall hnd hclean

/-- C1 witness: the round-trip at a concrete two-column table. -/
theorem C1_amended_witness :
    (((⟨1, [⟨String.toList "a", true, [some 2]⟩,
         ⟨String.toList "b", true, [some 3]⟩]⟩ : RawDF).cols.map RawCol.name).Nodup ∧
      ([String.toList "a", String.toList "b"] : List Name).Nodup ∧
      (∀ b ∈ ([String.toList "a", String.toList "b"] : List Name),
        (findCol ⟨1, [⟨String.toList "a", true, [some 2]⟩,
          ⟨String.toList "b", true, [some 3]⟩]⟩ b).isSome = true) ∧
      (∀ b ∈ ([String.toList "a", String.toList "b"] : List Name), CleanName b)) ∧
    ∃ eng : EngDF,
      create_dynamic_features (fun q => q)
        ⟨1, [⟨String.toList "a", true, [some 2]⟩,
          ⟨String.toList "b", true, [some 3]⟩]⟩
        [String.toList "a", String.toList "b"] = .ok eng ∧
      recreate_trained_features (fun q => q)
        ⟨1, [⟨String.toList "a", true, [some 2]⟩,
          ⟨String.toList "b", true, [some 3]⟩]⟩
        (eng.cols.map EngCol.name) [String.toList "a", String.toList "b"] = .ok eng :=
  ⟨⟨by decide, by decide, by decide, by decide⟩,
   C1_roundtrip_amended (fun q => q) _ _ (by decide) (by decide) (by decide) (by decide)⟩

end Pred

namespace Pred

/-- C6 witness: the separation at concrete parameter functions. -/
theorem C6_witness :
    predict_route_correction (fun _ => 0) [-0.4902] [-0.5] [-0.3] ⟨-100, 100, 0, 0⟩ =
      apply_training_data_bounds
        (improve_route_predictions (fun _ => 0) [-0.4902] [-0.5] [-0.3])
        [-0.5] [-0.3] ⟨-100, 100, 0, 0⟩ ∧
    predict_route_correction (fun _ => 0) [-0.4902] [-0.5] [-0.3] ⟨-100, 100, 0, 0⟩ ≠
      ensemble_route_predictions (fun _ => 0) (fun _ => 0) (fun _ _ => 0)
        [-0.4902] [-0.5] [-0.3] :=
  C6_predict_path_not_ensemble (fun _ => 0) (fun _ => 0) (fun _ _ => 0) rfl
    (fun x => by norm_num)

end Pred
